import Mathlib

/-!
Verification of the MetaVault metadata store (src/metavault.py) against its
natural-language specification.

The development shallowly embeds the parts of the program the claims are
about:

* the value codec (`DatasetWrapper._serialize` / `DatasetWrapper._deserialize`),
  which passes scalars through and round-trips nested dicts/lists through the
  textual JSON encoding of Python's `json` module;
* the sqlite-backed table state (`DatasetWrapper.__setitem__`,
  `DatasetWrapper.__getitem__`, `DatasetWrapper.batch_insert`,
  `DatasetWrapper.search`, `DatasetWrapper.all`);
* the in-memory `MetadataCollection` operations and the jsonl/json
  export/import paths;
* the `MetaVaultDatabase` transaction-control entry points together with the
  (buggy) `NoManualCommitException` declaration.

Modelling conventions, recorded once here:

* Values are modelled by the inductive `Val`: JSON null (Python `None`),
  integers, strings, lists and string-keyed dicts.  Floats and booleans are
  outside the modelled value domain (no claim mentions them); the JSON text
  emitted by the model uses the compact separators (no space after ',' or
  ':'), while the parser, like `json.loads`, skips whitespace, so nothing any
  claim observes depends on the cosmetic separator choice.
* Every column of a MetaVault table is declared `TEXT`, so sqlite's TEXT
  affinity converts any bound integer to its decimal text before storing it,
  and comparisons against such a column compare text.  A stored non-NULL cell
  is therefore modelled as a `String`, and a cell is `Option String`.
* Python dicts are modelled as insertion-ordered association lists; the
  update semantics of a dict literal / `dict.update` is `pyDictUpd`.
* Fallible calls return `Except Err _`; an `Err` names the Python exception
  class (sqlite errors, `KeyError`, `TypeError`, ...) that the call raises.
-/

/-- Value domain of the store: JSON null (Python `None`), integers, strings,
nested lists and string-keyed objects (Python dicts). -/
inductive Val where
  | null : Val
  | int (n : Int) : Val
  | str (s : String) : Val
  | arr (elems : List Val) : Val
  | obj (fields : List (String × Val)) : Val
deriving Repr

/-- Structural boolean equality on values, recursing through the nested list
positions (the derived handler does not apply to a nested inductive). -/
def Val.beq : Val → Val → Bool
  | .null, .null => true
  | .int a, .int b => a == b
  | .str a, .str b => a == b
  | .arr a, .arr b => go a b
  | .obj a, .obj b => goF a b
  | _, _ => false
where
  go : List Val → List Val → Bool
    | [], [] => true
    | x :: xs, y :: ys => Val.beq x y && go xs ys
    | _, _ => false
  goF : List (String × Val) → List (String × Val) → Bool
    | [], [] => true
    | (k, v) :: xs, (l, w) :: ys => k == l && Val.beq v w && goF xs ys
    | _, _ => false

instance : BEq Val := ⟨Val.beq⟩

mutual
theorem Val.beq_iff : ∀ a b : Val, Val.beq a b = true ↔ a = b
  | .null, .null => by simp [Val.beq]
  | .int _, .int _ => by simp [Val.beq]
  | .str _, .str _ => by simp [Val.beq]
  | .arr x, .arr y => by simp [Val.beq, Val.beq_go_iff x y]
  | .obj x, .obj y => by simp [Val.beq, Val.beq_goF_iff x y]
  | .null, .int _ | .null, .str _ | .null, .arr _ | .null, .obj _
  | .int _, .null | .int _, .str _ | .int _, .arr _ | .int _, .obj _
  | .str _, .null | .str _, .int _ | .str _, .arr _ | .str _, .obj _
  | .arr _, .null | .arr _, .int _ | .arr _, .str _ | .arr _, .obj _
  | .obj _, .null | .obj _, .int _ | .obj _, .str _ | .obj _, .arr _ => by
    simp [Val.beq]

theorem Val.beq_go_iff : ∀ xs ys : List Val, Val.beq.go xs ys = true ↔ xs = ys
  | [], [] => by simp [Val.beq.go]
  | x :: xs, y :: ys => by simp [Val.beq.go, Val.beq_iff x y, Val.beq_go_iff xs ys]
  | [], _ :: _ => by simp [Val.beq.go]
  | _ :: _, [] => by simp [Val.beq.go]

theorem Val.beq_goF_iff :
    ∀ xs ys : List (String × Val), Val.beq.goF xs ys = true ↔ xs = ys
  | [], [] => by simp [Val.beq.goF]
  | (k, v) :: xs, (l, w) :: ys => by
    simp [Val.beq.goF, Val.beq_iff v w, Val.beq_goF_iff xs ys, Prod.ext_iff, and_assoc]
  | [], _ :: _ => by simp [Val.beq.goF]
  | _ :: _, [] => by simp [Val.beq.goF]
end

instance : DecidableEq Val := fun a b =>
  decidable_of_iff (Val.beq a b = true) (Val.beq_iff a b)

instance : LawfulBEq Val where
  rfl := by intro a; exact (Val.beq_iff a a).mpr rfl
  eq_of_beq := by intro a b h; exact (Val.beq_iff a b).mp h

/-! ## Decimal digits

Integers bound to a TEXT-affinity sqlite column are stored as their decimal
text, and `json.dumps` writes integers the same way, so one digit printer
serves both.  The printer is fuel-based (structural, hence kernel-reducible);
`n + 1` units of fuel always suffice. -/

/-- Character of one decimal digit. -/
def digitChar (d : Nat) : Char := Char.ofNat (48 + d)

/-- Decimal digits of `n`, least significant first, on `fuel` units of fuel.
Empty for `n = 0`. -/
def natDigitsRev : Nat → Nat → List Char
  | 0, _ => []
  | fuel + 1, n => if n = 0 then [] else digitChar (n % 10) :: natDigitsRev fuel (n / 10)

/-- Decimal text of a natural number, most significant digit first. -/
def natToChars (n : Nat) : List Char :=
  if n = 0 then ['0'] else (natDigitsRev (n + 1) n).reverse

/-- Decimal text of an integer (`str(n)` in Python, also what sqlite stores
for an integer bound to a TEXT column). -/
def intToChars : Int → List Char
  | .ofNat n => natToChars n
  | .negSucc m => '-' :: natToChars (m + 1)

/-- Numeric value of a string of decimal digits, most significant first. -/
def digitsToNat (ds : List Char) : Nat :=
  ds.foldl (fun acc c => acc * 10 + (c.toNat - 48)) 0

theorem digitChar_toNat {d : Nat} (h : d < 10) : (digitChar d).toNat = 48 + d := by
  interval_cases d <;> decide

theorem digitChar_isDigit {d : Nat} (h : d < 10) : (digitChar d).isDigit = true := by
  interval_cases d <;> decide

theorem natDigitsRev_fuel :
    ∀ n fuel₁ fuel₂ : Nat, n ≤ fuel₁ → n ≤ fuel₂ →
      natDigitsRev fuel₁ n = natDigitsRev fuel₂ n := by
  intro n
  induction n using Nat.strong_induction_on with
  | _ n ih =>
    intro fuel₁ fuel₂ h₁ h₂
    by_cases h0 : n = 0
    · subst h0
      cases fuel₁ <;> cases fuel₂ <;> simp [natDigitsRev]
    · match fuel₁, fuel₂ with
      | 0, _ => omega
      | _, 0 => omega
      | f₁ + 1, f₂ + 1 =>
        have hlt : n / 10 < n := Nat.div_lt_self (Nat.pos_of_ne_zero h0) (by omega)
        simp only [natDigitsRev, if_neg h0]
        rw [ih (n / 10) hlt f₁ f₂ (by omega) (by omega)]

theorem natDigitsRev_all_digits {fuel n : Nat} :
    ∀ c ∈ natDigitsRev fuel n, c.isDigit = true := by
  induction fuel generalizing n with
  | zero => simp [natDigitsRev]
  | succ f ih =>
    intro c hc
    by_cases h0 : n = 0
    · simp [natDigitsRev, h0] at hc
    · simp only [natDigitsRev, if_neg h0, List.mem_cons] at hc
      rcases hc with rfl | hc
      · exact digitChar_isDigit (Nat.mod_lt n (by omega))
      · exact ih c hc

theorem digitsToNat_append (ds : List Char) (d : Char) :
    digitsToNat (ds ++ [d]) = digitsToNat ds * 10 + (d.toNat - 48) := by
  simp [digitsToNat, List.foldl_append]

theorem digitsToNat_natDigitsRev {fuel n : Nat} (hf : n ≤ fuel) :
    digitsToNat (natDigitsRev fuel n).reverse = n := by
  induction fuel generalizing n with
  | zero =>
    interval_cases n
    simp [natDigitsRev, digitsToNat]
  | succ f ih =>
    by_cases h0 : n = 0
    · simp [natDigitsRev, h0, digitsToNat]
    · have hdiv : n / 10 ≤ f := by
        have := Nat.div_lt_self (Nat.pos_of_ne_zero h0) (show 1 < 10 by omega)
        omega
      simp only [natDigitsRev, if_neg h0, List.reverse_cons]
      rw [digitsToNat_append, ih hdiv, digitChar_toNat (Nat.mod_lt n (by omega))]
      omega

theorem digitsToNat_natToChars (n : Nat) : digitsToNat (natToChars n) = n := by
  by_cases h0 : n = 0
  · simp [natToChars, h0, digitsToNat]
  · simp only [natToChars, if_neg h0]
    exact digitsToNat_natDigitsRev (Nat.le_succ n)

theorem natToChars_all_digits (n : Nat) : ∀ c ∈ natToChars n, c.isDigit = true := by
  by_cases h0 : n = 0
  · simp [natToChars, h0]
  · simp only [natToChars, if_neg h0]
    intro c hc
    exact natDigitsRev_all_digits c (List.mem_reverse.mp hc)

theorem natToChars_ne_nil (n : Nat) : natToChars n ≠ [] := by
  by_cases h0 : n = 0
  · simp [natToChars, h0]
  · simp only [natToChars, if_neg h0]
    intro h
    have : natDigitsRev (n + 1) n = [] := by
      simpa using congrArg List.reverse h
    simp [natDigitsRev, h0] at this

/-! ## JSON string bodies

Escaping of the quote, the backslash and the common control characters, as
`json.dumps` emits and `json.loads` reads them back.  Rare control characters
and the ASCII-escaping of non-ASCII text are cosmetic alternatives of the
same round-trip and are not modelled. -/

/-- Escape one character for a JSON string body. -/
def escapeChar (c : Char) : List Char :=
  if c = '"' then ['\\', '"']
  else if c = '\\' then ['\\', '\\']
  else if c = '\n' then ['\\', 'n']
  else if c = '\t' then ['\\', 't']
  else if c = '\r' then ['\\', 'r']
  else [c]

/-- Escape a whole string body. -/
def escapeChars : List Char → List Char
  | [] => []
  | c :: cs => escapeChar c ++ escapeChars cs

/-- Unescape one backslash escape, Python's `json` short escapes. -/
def unescapeChar (c : Char) : Option Char :=
  if c = '"' then some '"'
  else if c = '\\' then some '\\'
  else if c = '/' then some '/'
  else if c = 'n' then some '\n'
  else if c = 't' then some '\t'
  else if c = 'r' then some '\r'
  else if c = 'b' then some (Char.ofNat 8)
  else if c = 'f' then some (Char.ofNat 12)
  else none

/-- Parse the body of a JSON string after its opening quote, up to and over
the closing quote; returns the body and the remaining input. -/
def parseStringBody : List Char → Option (List Char × List Char)
  | [] => none
  | '"' :: rest => some ([], rest)
  | '\\' :: c :: rest =>
    match unescapeChar c with
    | some u => (parseStringBody rest).map (fun p => (u :: p.1, p.2))
    | none => none
  | c :: rest => (parseStringBody rest).map (fun p => (c :: p.1, p.2))

theorem parseStringBody_cons_default {c : Char} (cs : List Char)
    (h1 : c ≠ '"') (h2 : c ≠ '\\') :
    parseStringBody (c :: cs) = (parseStringBody cs).map (fun p => (c :: p.1, p.2)) := by
  rw [parseStringBody.eq_def]
  split
  · rename_i h
    simp at h
  · rename_i h
    simp only [List.cons.injEq] at h
    exact absurd h.1 h1
  · rename_i h
    simp only [List.cons.injEq] at h
    exact absurd h.1 h2
  · rename_i heq
    simp only [List.cons.injEq] at heq
    rw [heq.1, heq.2]

theorem parseStringBody_escape (s : List Char) (rest : List Char) :
    parseStringBody (escapeChars s ++ '"' :: rest) = some (s, rest) := by
  induction s with
  | nil => simp [escapeChars, parseStringBody]
  | cons c cs ih =>
    by_cases h1 : c = '"'
    · subst h1; simp [escapeChars, escapeChar, parseStringBody, unescapeChar, ih]
    · by_cases h2 : c = '\\'
      · subst h2; simp [escapeChars, escapeChar, parseStringBody, unescapeChar, ih]
      · by_cases h3 : c = '\n'
        · subst h3; simp [escapeChars, escapeChar, parseStringBody, unescapeChar, ih]
        · by_cases h4 : c = '\t'
          · subst h4; simp [escapeChars, escapeChar, parseStringBody, unescapeChar, ih]
          · by_cases h5 : c = '\r'
            · subst h5; simp [escapeChars, escapeChar, parseStringBody, unescapeChar, ih]
            · have hesc : escapeChar c = [c] := by
                simp [escapeChar, h1, h2, h3, h4, h5]
              rw [escapeChars, hesc, List.singleton_append, List.cons_append,
                parseStringBody_cons_default _ h1 h2, ih]
              rfl

/-- Whitespace skipping of `json.loads`. -/
def skipWs : List Char → List Char
  | c :: cs => if c = ' ' || c = '\n' || c = '\t' || c = '\r' then skipWs cs else c :: cs
  | [] => []

theorem skipWs_not_ws {c : Char} (cs : List Char)
    (h : (c = ' ' || c = '\n' || c = '\t' || c = '\r') = false) :
    skipWs (c :: cs) = c :: cs := by
  simp [skipWs, h]

theorem skipWs_nil : skipWs [] = [] := rfl

/-! ## The JSON codec

Printer and parser for the textual encoding `json.dumps` / `json.loads` give
structured values.  Both are structurally recursive: the printer on an
explicit fuel argument (any fuel at least `sizeOf v` prints `v` in full), the
parser on a fuel argument for which one more than the input length always
suffices, because every recursive descent first consumes at least one
character. -/

/-- Comma-separated concatenation of printed pieces. -/
def sepComma : List (List Char) → List Char
  | [] => []
  | [x] => x
  | x :: y :: rest => x ++ ',' :: sepComma (y :: rest)

/-- Printer of the JSON encoding (compact separators), structurally recursive
through the nested list positions. -/
def printVal : Val → List Char
  | .null => ['n', 'u', 'l', 'l']
  | .int n => intToChars n
  | .str s => '"' :: (escapeChars s.data ++ ['"'])
  | .arr xs => '[' :: (go xs ++ [']'])
  | .obj kvs => '{' :: (goF kvs ++ ['}'])
where
  go : List Val → List Char
    | [] => []
    | [x] => printVal x
    | x :: y :: rest => printVal x ++ ',' :: go (y :: rest)
  goF : List (String × Val) → List Char
    | [] => []
    | [(k, v)] => '"' :: (escapeChars k.data ++ '"' :: ':' :: printVal v)
    | (k, v) :: kv :: rest =>
      ('"' :: (escapeChars k.data ++ '"' :: ':' :: printVal v)) ++ ',' :: goF (kv :: rest)

/-- Element loop of an array parse: parses one element with `p`, then either
closes at a bracket or continues over a comma. -/
def parseListAux (p : List Char → Option (Val × List Char)) :
    Nat → List Char → Option (List Val × List Char)
  | 0, _ => none
  | fuel + 1, cs =>
    match p cs with
    | none => none
    | some (v, rest) =>
      match skipWs rest with
      | ']' :: r => some ([v], r)
      | ',' :: r =>
        match parseListAux p fuel r with
        | some (vs, r2) => some (v :: vs, r2)
        | none => none
      | _ => none

/-- After a parsed field, either close the object at a brace or continue the
field loop `cont` over a comma. -/
def parseFieldNext (cont : List Char → Option (List (String × Val) × List Char))
    (k : String) (v : Val) : List Char → Option (List (String × Val) × List Char)
  | '}' :: r => some ([(k, v)], r)
  | ',' :: r =>
    match cont r with
    | some (kvs, r2) => some ((k, v) :: kvs, r2)
    | none => none
  | _ => none

/-- After a parsed key, a colon and then the field's value parsed with `p`. -/
def parseFieldRest (p : List Char → Option (Val × List Char))
    (cont : List Char → Option (List (String × Val) × List Char))
    (k : String) : List Char → Option (List (String × Val) × List Char)
  | ':' :: cs3 =>
    match p cs3 with
    | none => none
    | some (v, cs4) => parseFieldNext cont k v (skipWs cs4)
  | _ => none

/-- One field of an object: a quoted key, then the rest of the field. -/
def parseFieldKey (p : List Char → Option (Val × List Char))
    (cont : List Char → Option (List (String × Val) × List Char)) :
    List Char → Option (List (String × Val) × List Char)
  | '"' :: cs1 =>
    match parseStringBody cs1 with
    | none => none
    | some (k, cs2) => parseFieldRest p cont (String.mk k) (skipWs cs2)
  | _ => none

/-- Field loop of an object parse: a quoted key, a colon, a value parsed with
`p`, then either closes at a brace or continues over a comma. -/
def parseFieldsAux (p : List Char → Option (Val × List Char)) :
    Nat → List Char → Option (List (String × Val) × List Char)
  | 0, _ => none
  | fuel + 1, cs => parseFieldKey p (parseFieldsAux p fuel) (skipWs cs)

/-- Parser of one JSON value, returning it with the unconsumed input.
Booleans, floats and the rarely used escapes are outside the modelled value
domain: on them the parse fails, and the deserializer below then returns the
text unchanged. -/
def parseValAux : Nat → List Char → Option (Val × List Char)
  | 0, _ => none
  | fuel + 1, cs0 =>
    match skipWs cs0 with
    | 'n' :: 'u' :: 'l' :: 'l' :: rest => some (.null, rest)
    | '"' :: rest =>
      match parseStringBody rest with
      | some (s, r) => some (.str (String.mk s), r)
      | none => none
    | '[' :: rest =>
      (match skipWs rest with
       | ']' :: r => some (.arr [], r)
       | cs2 =>
         match parseListAux (parseValAux fuel) (cs2.length + 1) cs2 with
         | some (vs, r) => some (.arr vs, r)
         | none => none)
    | '{' :: rest =>
      (match skipWs rest with
       | '}' :: r => some (.obj [], r)
       | cs2 =>
         match parseFieldsAux (parseValAux fuel) (cs2.length + 1) cs2 with
         | some (kvs, r) => some (.obj kvs, r)
         | none => none)
    | '-' :: rest =>
      (match rest.takeWhile Char.isDigit with
       | [] => none
       | ds => some (.int (-(digitsToNat ds : Int)), rest.dropWhile Char.isDigit))
    | c :: rest =>
      if c.isDigit then
        some (.int (digitsToNat ((c :: rest).takeWhile Char.isDigit)),
          (c :: rest).dropWhile Char.isDigit)
      else none
    | [] => none

/-- Text of a value, as `json.dumps` writes it. -/
def jsonDumps (v : Val) : String := String.mk (printVal v)

/-- Parse of a whole document, as `json.loads` reads it: one value, with
nothing but whitespace around it. -/
def jsonLoads (s : String) : Option Val :=
  match parseValAux (s.data.length + 1) s.data with
  | some (v, rest) => if skipWs rest = [] then some v else none
  | none => none

/-! ## Round-trip of the codec -/

/-- Character class of the first character of any printed value. -/
def headOk (c : Char) : Prop :=
  c = 'n' ∨ c = '"' ∨ c = '[' ∨ c = '{' ∨ c = '-' ∨ c.isDigit = true

/-- Input whose head cannot extend a decimal literal. -/
def noDigitHead : List Char → Prop
  | [] => True
  | c :: _ => c.isDigit = false

theorem isDigit_ne {c : Char} (h : c.isDigit = true) :
    c ≠ 'n' ∧ c ≠ '"' ∧ c ≠ '[' ∧ c ≠ '{' ∧ c ≠ '-' ∧ c ≠ ']' ∧ c ≠ '}' ∧
      c ≠ ',' ∧ c ≠ ':' := by
  refine ⟨?_, ?_, ?_, ?_, ?_, ?_, ?_, ?_, ?_⟩ <;>
    (rintro rfl; exact absurd h (by decide))

theorem isDigit_not_ws {c : Char} (h : c.isDigit = true) :
    (c = ' ' || c = '\n' || c = '\t' || c = '\r') = false := by
  by_contra hc
  rw [Bool.not_eq_false] at hc
  simp only [Bool.or_eq_true, decide_eq_true_eq] at hc
  rcases hc with ((rfl | rfl) | rfl) | rfl <;> exact absurd h (by decide)

theorem headOk_not_ws {c : Char} (h : headOk c) :
    (c = ' ' || c = '\n' || c = '\t' || c = '\r') = false := by
  rcases h with rfl | rfl | rfl | rfl | rfl | hd
  · decide
  · decide
  · decide
  · decide
  · decide
  · exact isDigit_not_ws hd

theorem headOk_ne_close {c : Char} (h : headOk c) : c ≠ ']' ∧ c ≠ '}' := by
  rcases h with rfl | rfl | rfl | rfl | rfl | hd
  · exact ⟨by decide, by decide⟩
  · exact ⟨by decide, by decide⟩
  · exact ⟨by decide, by decide⟩
  · exact ⟨by decide, by decide⟩
  · exact ⟨by decide, by decide⟩
  · exact ⟨(isDigit_ne hd).2.2.2.2.2.1, (isDigit_ne hd).2.2.2.2.2.2.1⟩

theorem printVal_head : ∀ v : Val, ∃ c cs, printVal v = c :: cs ∧ headOk c := by
  intro v
  cases v with
  | null => exact ⟨'n', _, rfl, Or.inl rfl⟩
  | int n =>
    cases n with
    | ofNat m =>
      have hne := natToChars_ne_nil m
      match hm : natToChars m with
      | [] => exact absurd hm hne
      | c :: cs =>
        refine ⟨c, cs, ?_, ?_⟩
        · simp [printVal, intToChars, hm]
        · exact Or.inr (Or.inr (Or.inr (Or.inr (Or.inr
            (natToChars_all_digits m c (by rw [hm]; exact List.mem_cons_self c cs))))))
    | negSucc m => exact ⟨'-', _, rfl, Or.inr (Or.inr (Or.inr (Or.inr (Or.inl rfl))))⟩
  | str s => exact ⟨'"', _, rfl, Or.inr (Or.inl rfl)⟩
  | arr xs => exact ⟨'[', _, rfl, Or.inr (Or.inr (Or.inl rfl))⟩
  | obj kvs => exact ⟨'{', _, rfl, Or.inr (Or.inr (Or.inr (Or.inl rfl)))⟩

theorem printVal_ne_nil (v : Val) : printVal v ≠ [] := by
  obtain ⟨c, cs, h, -⟩ := printVal_head v
  simp [h]

theorem skipWs_printVal (v : Val) (rest : List Char) :
    skipWs (printVal v ++ rest) = printVal v ++ rest := by
  obtain ⟨c, cs, h, hc⟩ := printVal_head v
  rw [h, List.cons_append]
  exact skipWs_not_ws _ (headOk_not_ws hc)

theorem takeWhile_digits {ds : List Char} (rest : List Char)
    (hds : ∀ c ∈ ds, c.isDigit = true) (hr : noDigitHead rest) :
    (ds ++ rest).takeWhile Char.isDigit = ds ∧
      (ds ++ rest).dropWhile Char.isDigit = rest := by
  induction ds with
  | nil =>
    cases rest with
    | nil => simp
    | cons c cs =>
      have : c.isDigit = false := hr
      simp [List.takeWhile_cons, List.dropWhile_cons, this]
  | cons d ds ih =>
    have hd : d.isDigit = true := hds d (List.mem_cons_self d ds)
    have := ih (fun c hc => hds c (List.mem_cons_of_mem d hc))
    simp [List.takeWhile_cons, List.dropWhile_cons, hd, this.1, this.2]

theorem parseValAux_null_red (g : Nat) (rest : List Char) :
    parseValAux (g + 1) ('n' :: 'u' :: 'l' :: 'l' :: rest) = some (.null, rest) := rfl

theorem parseValAux_quote_red (g : Nat) (rest : List Char) :
    parseValAux (g + 1) ('"' :: rest) =
      match parseStringBody rest with
      | some (s, r) => some (.str (String.mk s), r)
      | none => none := rfl

theorem parseValAux_lbracket_red (g : Nat) (rest : List Char) :
    parseValAux (g + 1) ('[' :: rest) =
      (match skipWs rest with
       | ']' :: r => some (.arr [], r)
       | cs2 =>
         match parseListAux (parseValAux g) (cs2.length + 1) cs2 with
         | some (vs, r) => some (.arr vs, r)
         | none => none) := rfl

theorem parseValAux_lbrace_red (g : Nat) (rest : List Char) :
    parseValAux (g + 1) ('{' :: rest) =
      (match skipWs rest with
       | '}' :: r => some (.obj [], r)
       | cs2 =>
         match parseFieldsAux (parseValAux g) (cs2.length + 1) cs2 with
         | some (kvs, r) => some (.obj kvs, r)
         | none => none) := rfl

theorem parseValAux_minus_red (g : Nat) (rest : List Char) :
    parseValAux (g + 1) ('-' :: rest) =
      (match rest.takeWhile Char.isDigit with
       | [] => none
       | ds => some (.int (-(digitsToNat ds : Int)), rest.dropWhile Char.isDigit)) := rfl

theorem parseValAux_succ (g : Nat) (cs0 : List Char) :
    parseValAux (g + 1) cs0 =
      match skipWs cs0 with
      | 'n' :: 'u' :: 'l' :: 'l' :: rest => some (.null, rest)
      | '"' :: rest =>
        match parseStringBody rest with
        | some (s, r) => some (.str (String.mk s), r)
        | none => none
      | '[' :: rest =>
        (match skipWs rest with
         | ']' :: r => some (.arr [], r)
         | cs2 =>
           match parseListAux (parseValAux g) (cs2.length + 1) cs2 with
           | some (vs, r) => some (.arr vs, r)
           | none => none)
      | '{' :: rest =>
        (match skipWs rest with
         | '}' :: r => some (.obj [], r)
         | cs2 =>
           match parseFieldsAux (parseValAux g) (cs2.length + 1) cs2 with
           | some (kvs, r) => some (.obj kvs, r)
           | none => none)
      | '-' :: rest =>
        (match rest.takeWhile Char.isDigit with
         | [] => none
         | ds => some (.int (-(digitsToNat ds : Int)), rest.dropWhile Char.isDigit))
      | c :: rest =>
        if c.isDigit then
          some (.int (digitsToNat ((c :: rest).takeWhile Char.isDigit)),
            (c :: rest).dropWhile Char.isDigit)
        else none
      | [] => none := rfl

theorem parseValAux_digit_red (g : Nat) {c : Char} (tail : List Char)
    (hc : c.isDigit = true) :
    parseValAux (g + 1) (c :: tail) =
      some (.int (digitsToNat ((c :: tail).takeWhile Char.isDigit)),
        (c :: tail).dropWhile Char.isDigit) := by
  obtain ⟨hn, hq, hlb, hlc, hm, -⟩ := isDigit_ne hc
  have hws : skipWs (c :: tail) = c :: tail := skipWs_not_ws _ (isDigit_not_ws hc)
  rw [parseValAux_succ, hws]
  split
  · rename_i h
    simp only [List.cons.injEq] at h
    exact absurd h.1 hn
  · rename_i h
    simp only [List.cons.injEq] at h
    exact absurd h.1 hq
  · rename_i h
    simp only [List.cons.injEq] at h
    exact absurd h.1 hlb
  · rename_i h
    simp only [List.cons.injEq] at h
    exact absurd h.1 hlc
  · rename_i h
    simp only [List.cons.injEq] at h
    exact absurd h.1 hm
  · rename_i heq
    simp only [List.cons.injEq] at heq
    rw [heq.1, heq.2, if_pos (heq.1 ▸ hc)]
  · rename_i h
    simp at h

theorem string_mk_data (s : String) : String.mk s.data = s := rfl

theorem printVal_go_length : ∀ xs : List Val, xs.length ≤ (printVal.go xs).length + 1
  | [] => by simp [printVal.go]
  | [x] => by simp [printVal.go]
  | x :: y :: tl => by
    have ih := printVal_go_length (y :: tl)
    simp only [printVal.go, List.length_append, List.length_cons] at ih ⊢
    omega

theorem printVal_goF_length :
    ∀ kvs : List (String × Val), kvs.length ≤ (printVal.goF kvs).length + 1
  | [] => by simp [printVal.goF]
  | [(k, v)] => by simp [printVal.goF]
  | (k, v) :: kv :: tl => by
    have ih := printVal_goF_length (kv :: tl)
    simp only [printVal.goF, List.length_append, List.length_cons] at ih ⊢
    omega

theorem parseListAux_step {p : List Char → Option (Val × List Char)} (fl : Nat)
    {cs : List Char} {v : Val} {r' : List Char} (h : p cs = some (v, r')) :
    parseListAux p (fl + 1) cs =
      match skipWs r' with
      | ']' :: r => some ([v], r)
      | ',' :: r =>
        match parseListAux p fl r with
        | some (vs, r2) => some (v :: vs, r2)
        | none => none
      | _ => none := by
  conv_lhs => rw [parseListAux]
  rw [h]

theorem parseValAux_print_int (g : Nat) (n : Int) (rest : List Char)
    (hr : noDigitHead rest) :
    parseValAux (g + 1) (intToChars n ++ rest) = some (.int n, rest) := by
  cases n with
  | ofNat m =>
    have hsplit := @takeWhile_digits (natToChars m) rest (natToChars_all_digits m) hr
    match hm : natToChars m with
    | [] => exact absurd hm (natToChars_ne_nil m)
    | c :: cs =>
      have hc : c.isDigit = true :=
        natToChars_all_digits m c (by rw [hm]; exact List.mem_cons_self c cs)
      have : intToChars (Int.ofNat m) ++ rest = c :: (cs ++ rest) := by
        simp [intToChars, hm]
      rw [this, parseValAux_digit_red g (cs ++ rest) hc]
      rw [hm] at hsplit
      simp only [List.cons_append] at hsplit
      rw [hsplit.1, hsplit.2, ← hm, digitsToNat_natToChars]
      rfl
  | negSucc m =>
    have hsplit :=
      @takeWhile_digits (natToChars (m + 1)) rest (natToChars_all_digits (m + 1)) hr
    have hshape : intToChars (Int.negSucc m) ++ rest = '-' :: (natToChars (m + 1) ++ rest) := by
      simp [intToChars]
    rw [hshape, parseValAux_minus_red, hsplit.1, hsplit.2]
    match hm : natToChars (m + 1) with
    | [] => exact absurd hm (natToChars_ne_nil (m + 1))
    | c :: cs =>
      have hval : digitsToNat (c :: cs) = m + 1 := by
        rw [← hm, digitsToNat_natToChars]
      simp [hval, Int.negSucc_eq]

theorem parseListAux_step_close {p : List Char → Option (Val × List Char)} (fl : Nat)
    {cs : List Char} {v : Val} {r : List Char} (h : p cs = some (v, ']' :: r)) :
    parseListAux p (fl + 1) cs = some ([v], r) := by
  rw [parseListAux_step fl h, skipWs_not_ws _ (by decide)]
  rfl

theorem parseListAux_step_comma {p : List Char → Option (Val × List Char)} (fl : Nat)
    {cs : List Char} {v : Val} {r : List Char} (h : p cs = some (v, ',' :: r)) :
    parseListAux p (fl + 1) cs =
      match parseListAux p fl r with
      | some (vs, r2) => some (v :: vs, r2)
      | none => none := by
  rw [parseListAux_step fl h, skipWs_not_ws _ (by decide)]
  rfl

theorem parseListAux_print {g : Nat}
    (hp : ∀ x r', (printVal x ++ r').length < g → noDigitHead r' →
        parseValAux g (printVal x ++ r') = some (x, r')) :
    ∀ xs fuel rest, xs ≠ [] → xs.length ≤ fuel →
      (printVal.go xs ++ ']' :: rest).length < g → noDigitHead rest →
      parseListAux (parseValAux g) fuel (printVal.go xs ++ ']' :: rest) =
        some (xs, rest)
  | [], _, _, hne, _, _, _ => absurd rfl hne
  | [x], fuel, rest, _, hfuel, hlen, hrest => by
    obtain ⟨fl, rfl⟩ : ∃ fl, fuel = fl + 1 := ⟨fuel - 1, by simp at hfuel; omega⟩
    have hx : parseValAux g (printVal x ++ ']' :: rest) = some (x, ']' :: rest) := by
      apply hp
      · simpa [printVal.go] using hlen
      · show (']').isDigit = false
        decide
    rw [show printVal.go [x] = printVal x from rfl, parseListAux_step_close fl hx]
  | x :: y :: tl, fuel, rest, _, hfuel, hlen, hrest => by
    obtain ⟨fl, rfl⟩ : ∃ fl, fuel = fl + 1 := ⟨fuel - 1, by simp at hfuel; omega⟩
    have hshape : printVal.go (x :: y :: tl) ++ ']' :: rest =
        printVal x ++ ',' :: (printVal.go (y :: tl) ++ ']' :: rest) := by
      simp [printVal.go]
    rw [hshape] at hlen
    have hx : parseValAux g
        (printVal x ++ ',' :: (printVal.go (y :: tl) ++ ']' :: rest)) =
        some (x, ',' :: (printVal.go (y :: tl) ++ ']' :: rest)) := by
      apply hp
      · exact hlen
      · show (',').isDigit = false
        decide
    have hlen' : (printVal.go (y :: tl) ++ ']' :: rest).length < g := by
      simp only [List.length_append, List.length_cons] at hlen ⊢
      omega
    have ih := parseListAux_print hp (y :: tl) fl rest (by simp)
      (by simp only [List.length_cons] at hfuel ⊢; omega) hlen' hrest
    rw [hshape, parseListAux_step_comma fl hx, ih]

theorem parseFieldsAux_print {g : Nat}
    (hp : ∀ x r', (printVal x ++ r').length < g → noDigitHead r' →
        parseValAux g (printVal x ++ r') = some (x, r')) :
    ∀ kvs fuel rest, kvs ≠ [] → kvs.length ≤ fuel →
      (printVal.goF kvs ++ '}' :: rest).length < g → noDigitHead rest →
      parseFieldsAux (parseValAux g) fuel (printVal.goF kvs ++ '}' :: rest) =
        some (kvs, rest)
  | [], _, _, hne, _, _, _ => absurd rfl hne
  | [(k, v)], fuel, rest, _, hfuel, hlen, hrest => by
    obtain ⟨fl, rfl⟩ : ∃ fl, fuel = fl + 1 := ⟨fuel - 1, by simp at hfuel; omega⟩
    have hshape : printVal.goF [(k, v)] ++ '}' :: rest =
        '"' :: (escapeChars k.data ++ '"' :: ':' :: (printVal v ++ '}' :: rest)) := by
      simp [printVal.goF]
    have hv : parseValAux g (printVal v ++ '}' :: rest) = some (v, '}' :: rest) := by
      apply hp
      · rw [hshape] at hlen
        simp only [List.length_cons, List.length_append] at hlen ⊢
        omega
      · show ('}').isDigit = false
        decide
    rw [hshape, parseFieldsAux, skipWs_not_ws _ (by decide), parseFieldKey,
      parseStringBody_escape]
    show parseFieldRest (parseValAux g) (parseFieldsAux (parseValAux g) fl)
        (String.mk k.data) (skipWs (':' :: (printVal v ++ '}' :: rest))) =
      some ([(k, v)], rest)
    rw [string_mk_data, skipWs_not_ws _ (by decide), parseFieldRest, hv]
    show parseFieldNext (parseFieldsAux (parseValAux g) fl) k v
        (skipWs ('}' :: rest)) = some ([(k, v)], rest)
    rw [skipWs_not_ws _ (by decide), parseFieldNext]
  | (k, v) :: kv :: tl, fuel, rest, _, hfuel, hlen, hrest => by
    obtain ⟨fl, rfl⟩ : ∃ fl, fuel = fl + 1 := ⟨fuel - 1, by simp at hfuel; omega⟩
    have hshape : printVal.goF ((k, v) :: kv :: tl) ++ '}' :: rest =
        '"' :: (escapeChars k.data ++ '"' :: ':' ::
          (printVal v ++ ',' :: (printVal.goF (kv :: tl) ++ '}' :: rest))) := by
      simp [printVal.goF]
    have hv : parseValAux g
        (printVal v ++ ',' :: (printVal.goF (kv :: tl) ++ '}' :: rest)) =
        some (v, ',' :: (printVal.goF (kv :: tl) ++ '}' :: rest)) := by
      apply hp
      · rw [hshape] at hlen
        simp only [List.length_cons, List.length_append] at hlen ⊢
        omega
      · show (',').isDigit = false
        decide
    have ih := parseFieldsAux_print hp (kv :: tl) fl rest (by simp)
      (by simp only [List.length_cons] at hfuel ⊢; omega)
      (by rw [hshape] at hlen
          simp only [List.length_cons, List.length_append] at hlen ⊢
          omega) hrest
    rw [hshape, parseFieldsAux, skipWs_not_ws _ (by decide), parseFieldKey,
      parseStringBody_escape]
    show parseFieldRest (parseValAux g) (parseFieldsAux (parseValAux g) fl)
        (String.mk k.data)
        (skipWs (':' :: (printVal v ++ ',' :: (printVal.goF (kv :: tl) ++ '}' :: rest)))) =
      some ((k, v) :: kv :: tl, rest)
    rw [string_mk_data, skipWs_not_ws _ (by decide), parseFieldRest, hv]
    show parseFieldNext (parseFieldsAux (parseValAux g) fl) k v
        (skipWs (',' :: (printVal.goF (kv :: tl) ++ '}' :: rest))) =
      some ((k, v) :: kv :: tl, rest)
    rw [skipWs_not_ws _ (by decide), parseFieldNext, ih]

theorem printVal_go_cons_head (x : Val) (xs : List Val) :
    ∃ c cs, printVal.go (x :: xs) = c :: cs ∧ headOk c := by
  obtain ⟨c, cs, hx, hc⟩ := printVal_head x
  cases xs with
  | nil => exact ⟨c, cs, by simp [printVal.go, hx], hc⟩
  | cons y tl =>
    exact ⟨c, cs ++ ',' :: printVal.go (y :: tl), by simp [printVal.go, hx], hc⟩

theorem printVal_goF_cons_head (kv : String × Val) (kvs : List (String × Val)) :
    ∃ cs, printVal.goF (kv :: kvs) = '"' :: cs := by
  obtain ⟨k, v⟩ := kv
  cases kvs with
  | nil =>
    exact ⟨escapeChars k.data ++ '"' :: ':' :: printVal v, by simp [printVal.goF]⟩
  | cons kv2 tl =>
    exact ⟨escapeChars k.data ++ '"' :: ':' ::
      (printVal v ++ ',' :: printVal.goF (kv2 :: tl)), by simp [printVal.goF]⟩

theorem parseValAux_lbracket_ne (g : Nat) {b : List Char} {c : Char} {cs₂ : List Char}
    (hb : skipWs b = c :: cs₂) (hc : c ≠ ']') :
    parseValAux (g + 1) ('[' :: b) =
      match parseListAux (parseValAux g) ((c :: cs₂).length + 1) (c :: cs₂) with
      | some (vs, r) => some (.arr vs, r)
      | none => none := by
  rw [parseValAux_lbracket_red, hb]
  split
  · rename_i h
    simp only [List.cons.injEq] at h
    exact absurd h.1 hc
  · rfl

theorem parseValAux_lbrace_ne (g : Nat) {b : List Char} {c : Char} {cs₂ : List Char}
    (hb : skipWs b = c :: cs₂) (hc : c ≠ '}') :
    parseValAux (g + 1) ('{' :: b) =
      match parseFieldsAux (parseValAux g) ((c :: cs₂).length + 1) (c :: cs₂) with
      | some (kvs, r) => some (.obj kvs, r)
      | none => none := by
  rw [parseValAux_lbrace_red, hb]
  split
  · rename_i h
    simp only [List.cons.injEq] at h
    exact absurd h.1 hc
  · rfl

theorem parseValAux_printVal (f : Nat) :
    ∀ v rest, (printVal v ++ rest).length < f → noDigitHead rest →
      parseValAux f (printVal v ++ rest) = some (v, rest) := by
  induction f using Nat.strong_induction_on with
  | _ f ih =>
    intro v rest hlen hrest
    obtain ⟨g, rfl⟩ : ∃ g, f = g + 1 := ⟨f - 1, by
      obtain ⟨c, cs, hv, -⟩ := printVal_head v
      rw [hv] at hlen
      simp only [List.cons_append, List.length_cons] at hlen
      omega⟩
    have hp : ∀ x r', (printVal x ++ r').length < g → noDigitHead r' →
        parseValAux g (printVal x ++ r') = some (x, r') :=
      fun x r' h1 h2 => ih g (Nat.lt_succ_self g) x r' h1 h2
    cases v with
    | null =>
      rw [show printVal .null ++ rest = 'n' :: 'u' :: 'l' :: 'l' :: rest from rfl,
        parseValAux_null_red]
    | int n =>
      rw [show printVal (.int n) = intToChars n from rfl]
      exact parseValAux_print_int g n rest hrest
    | str s =>
      rw [show printVal (.str s) ++ rest =
        '"' :: (escapeChars s.data ++ '"' :: rest) from by simp [printVal],
        parseValAux_quote_red, parseStringBody_escape]
    | arr xs =>
      cases xs with
      | nil =>
        rw [show printVal (.arr []) ++ rest = '[' :: ']' :: rest from by
          simp [printVal, printVal.go], parseValAux_lbracket_red,
          skipWs_not_ws _ (by decide)]
        rfl
      | cons x xs =>
        have hshape : printVal (.arr (x :: xs)) ++ rest =
            '[' :: (printVal.go (x :: xs) ++ ']' :: rest) := by
          simp [printVal]
        obtain ⟨c, cs₂, hgo, hcOk⟩ := printVal_go_cons_head x xs
        have hskip : skipWs (printVal.go (x :: xs) ++ ']' :: rest) =
            c :: (cs₂ ++ ']' :: rest) := by
          rw [hgo, List.cons_append]
          exact skipWs_not_ws _ (headOk_not_ws hcOk)
        have hfull : c :: (cs₂ ++ ']' :: rest) = printVal.go (x :: xs) ++ ']' :: rest := by
          rw [hgo, List.cons_append]
        rw [hshape, parseValAux_lbracket_ne g hskip (headOk_ne_close hcOk).1]
        have hlen2 : (printVal.go (x :: xs) ++ ']' :: rest).length < g := by
          rw [hshape] at hlen
          simp only [List.length_cons, List.length_append] at hlen ⊢
          omega
        have hfuel : (x :: xs).length ≤ (c :: (cs₂ ++ ']' :: rest)).length + 1 := by
          have hl := printVal_go_length (x :: xs)
          have : (c :: (cs₂ ++ ']' :: rest)).length =
              (printVal.go (x :: xs)).length + 1 + rest.length := by
            rw [hfull]
            simp only [List.length_append, List.length_cons]
            omega
          omega
        rw [hfull, parseListAux_print hp (x :: xs) _ rest (by simp)
          (by rw [← hfull]; exact Nat.le_of_succ_le_succ (Nat.succ_le_succ hfuel))
          hlen2 hrest]
    | obj kvs =>
      cases kvs with
      | nil =>
        rw [show printVal (.obj []) ++ rest = '{' :: '}' :: rest from by
          simp [printVal, printVal.goF], parseValAux_lbrace_red,
          skipWs_not_ws _ (by decide)]
        rfl
      | cons kv kvs =>
        have hshape : printVal (.obj (kv :: kvs)) ++ rest =
            '{' :: (printVal.goF (kv :: kvs) ++ '}' :: rest) := by
          simp [printVal]
        obtain ⟨cs₂, hgo⟩ := printVal_goF_cons_head kv kvs
        have hskip : skipWs (printVal.goF (kv :: kvs) ++ '}' :: rest) =
            '"' :: (cs₂ ++ '}' :: rest) := by
          rw [hgo, List.cons_append]
          exact skipWs_not_ws _ (by decide)
        have hfull : '"' :: (cs₂ ++ '}' :: rest) = printVal.goF (kv :: kvs) ++ '}' :: rest := by
          rw [hgo, List.cons_append]
        rw [hshape, parseValAux_lbrace_ne g hskip (by decide)]
        have hlen2 : (printVal.goF (kv :: kvs) ++ '}' :: rest).length < g := by
          rw [hshape] at hlen
          simp only [List.length_cons, List.length_append] at hlen ⊢
          omega
        have hfuel : (kv :: kvs).length ≤ ('"' :: (cs₂ ++ '}' :: rest)).length := by
          have hl := printVal_goF_length (kv :: kvs)
          have : ('"' :: (cs₂ ++ '}' :: rest)).length =
              (printVal.goF (kv :: kvs)).length + 1 + rest.length := by
            rw [hfull]
            simp only [List.length_append, List.length_cons]
            omega
          omega
        rw [hfull, parseFieldsAux_print hp (kv :: kvs) _ rest (by simp)
          (by rw [← hfull]; omega) hlen2 hrest]

theorem jsonLoads_jsonDumps (v : Val) : jsonLoads (jsonDumps v) = some v := by
  have h := parseValAux_printVal ((printVal v).length + 1) v []
    (by simp) trivial
  rw [show printVal v ++ [] = printVal v from by simp] at h
  show (match parseValAux ((printVal v).length + 1) (printVal v) with
    | some (v, rest) => if skipWs rest = [] then some v else none
    | none => none) = some v
  rw [h]
  rfl

/-! ## The dataset value codec (`DatasetWrapper._serialize` / `_deserialize`) -/

/-- Stored cell of a sqlite row: NULL or text.  Every MetaVault column is
declared TEXT, so TEXT affinity stores any bound integer as decimal text. -/
abbrev Cell := Option String

/-- Model of `DatasetWrapper._serialize` composed with sqlite binding and
TEXT-affinity storage: a dict or list is written as its `json.dumps` text,
a string is stored unchanged, an integer becomes its decimal text, and
Python `None` becomes NULL. -/
def DatasetWrapper._serialize : Val → Cell
  | .null => none
  | .int n => some (String.mk (intToChars n))
  | .str s => some s
  | .arr xs => some (jsonDumps (.arr xs))
  | .obj kvs => some (jsonDumps (.obj kvs))

/-- Model of `DatasetWrapper._deserialize` on a non-NULL stored text:
`json.loads(value)` when it parses, otherwise the original text unchanged
(the `except (JSONDecodeError, TypeError)` branch). -/
def DatasetWrapper._deserialize (s : String) : Val :=
  match jsonLoads s with
  | some v => v
  | none => .str s

/-- Read conversion of one cell, as every read path applies it:
`self._deserialize(value) if value is not None else None`. -/
def readCell : Cell → Val
  | none => .null
  | some s => DatasetWrapper._deserialize s

/-! ## Table state -/

/-- Python exception class surfaced by a modelled call. -/
inductive Err where
  | keyError : Err
  | operationalError : Err
  | programmingError : Err
  | interfaceError : Err
  | typeError : Err
deriving Repr, DecidableEq

/-- One stored row: the total map from column name to stored cell (a column
the row was never given holds NULL). -/
abbrev Row := String → Cell

/-- State of one MetaVault table: the column list (key column `_filename`
first, then attribute columns in declaration order, which is the order
`SELECT *` returns) and the rows in rowid order (the order an unsorted
`SELECT` returns). -/
structure Table where
  columns : List String
  rows : List (String × Row)

/-- Attribute bag of one key: a Python dict, insertion-ordered. -/
abbrev Entry := List (String × Val)

/-- Python dict lookup in an attribute bag. -/
def Entry.lookupVal (e : Entry) (a : String) : Option Val :=
  (e.find? (fun kv => kv.1 == a)).map (fun kv => kv.2)

/-- The empty dataset `create_dataset(name)` makes: only the key column. -/
def emptyTable : Table := { columns := ["_filename"], rows := [] }

def Table.findRow (t : Table) (k : String) : Option Row :=
  (t.rows.find? (fun r => r.1 == k)).map (fun r => r.2)

/-- Decoded attribute bag of one row, as `__getitem__`, `search` and `all`
build it: every column except `_filename`, in column order, read through
`_deserialize`. -/
def Table.rowEntry (t : Table) (row : Row) : Entry :=
  (t.columns.filter (fun c => c ≠ "_filename")).map (fun c => (c, readCell (row c)))

/-- The decoded value the dataset shows for key `k`, attribute `a` (`none`
when the key has no row). -/
def Table.readAttr (t : Table) (k a : String) : Option Val :=
  (t.findRow k).map (fun row => readCell (row a))

/-- Model of `DatasetWrapper.__getitem__`: `SELECT * FROM t WHERE
_filename=?`; `KeyError` when no row matches, otherwise the decoded
attribute bag with `_filename` popped. -/
def DatasetWrapper.__getitem__ (t : Table) (k : String) : Except Err Entry :=
  match t.findRow k with
  | none => .error .keyError
  | some row => .ok (t.rowEntry row)

/-- Model of `DatasetWrapper.__setitem__` (the upsert `set`).  The generated
SQL is invalid when the entry is empty (empty column list) and names
`_filename` twice when the entry uses the key column, both
`sqlite3.OperationalError`; a Python dict cannot repeat a key, so an entry
with repeated attribute names is rejected the same way.  New attribute names
are added as columns first (`new_columns` is a Python set; its iteration
order is modelled as first-occurrence order, and no theorem depends on it),
then one `INSERT .. ON CONFLICT(_filename) DO UPDATE SET` writes exactly the
supplied columns: on a fresh key every other column is NULL, on an existing
key every other column keeps its cell and the row keeps its position. -/
def writtenCell (e : Entry) (c : String) : Cell :=
  DatasetWrapper._serialize ((Entry.lookupVal e c).getD .null)

/-- The row an insert of a fresh key produces: the key text in `_filename`,
the serialized supplied values, NULL elsewhere. -/
def insertRow (k : String) (e : Entry) : Row := fun c =>
  if c == "_filename" then some k
  else if (e.map (fun kv => kv.1)).contains c then writtenCell e c
  else none

/-- The row `ON CONFLICT .. DO UPDATE SET` leaves: the supplied columns
overwritten, every other cell kept. -/
def updateRow (e : Entry) (old : Row) : Row := fun c =>
  if (e.map (fun kv => kv.1)).contains c then writtenCell e c else old c

def DatasetWrapper.__setitem__ (t : Table) (k : String) (e : Entry) :
    Except Err Table :=
  if e.isEmpty then .error .operationalError
  else if (e.map (fun kv => kv.1)).contains "_filename" then .error .operationalError
  else if ¬ (e.map (fun kv => kv.1)).Nodup then .error .operationalError
  else
    let cols := t.columns ++
      (e.map (fun kv => kv.1)).filter (fun c => ¬ t.columns.contains c)
    if t.rows.any (fun r => r.1 == k) then
      .ok { columns := cols,
            rows := t.rows.map (fun r =>
              if r.1 == k then (k, updateRow e r.2) else r) }
    else
      .ok { columns := cols, rows := t.rows ++ [(k, insertRow k e)] }

/-- The whole row an `INSERT OR REPLACE` writes for one batch entry: the key
text, then the entry's values bound positionally against the batch's column
list, NULL in every other column. -/
def batchRow (cols : List String) (k : String) (e : Entry) : Row := fun c =>
  if c == "_filename" then some k
  else
    match cols.findIdx? (fun c2 => c2 == c) with
    | some i =>
      match e.get? i with
      | some kv => DatasetWrapper._serialize kv.2
      | none => none
    | none => none

/-- Model of `DatasetWrapper.batch_insert`.  An empty mapping returns at
once.  Otherwise the column list comes from the FIRST entry alone; an EMPTY
first entry makes the built SQL `INSERT OR REPLACE INTO t (_filename, )
VALUES (?)` — the trailing comma is a syntax error, a prepare-time
`sqlite3.OperationalError` raised before anything else is checked.  The
statement also fails with `sqlite3.OperationalError` when one of the
first entry's columns is absent from the table (nothing adds it), and with
`sqlite3.ProgrammingError` when another entry supplies a different number of
values.  Values are bound positionally against the first entry's columns; a
replaced row is a whole new row, so columns outside that list become NULL,
and the row moves to the end (a fresh rowid). -/
def DatasetWrapper.batch_insert (t : Table) (entries : List (String × Entry)) :
    Except Err Table :=
  match entries with
  | [] => .ok t
  | (_, e0) :: _ =>
    let cols := e0.map (fun kv => kv.1)
    if e0.isEmpty then .error .operationalError
    else if cols.contains "_filename" then .error .operationalError
    else if ¬ cols.Nodup then .error .operationalError
    else if ¬ cols.all (fun c => t.columns.contains c) then .error .operationalError
    else if ¬ entries.all (fun pe => pe.2.length = cols.length) then
      .error .programmingError
    else
      .ok { columns := t.columns,
            rows := entries.foldl (fun rows pe =>
              rows.filter (fun r => r.1 != pe.1) ++
                [(pe.1, batchRow cols pe.1 pe.2)]) t.rows }

/-- Model of `DatasetWrapper.all` (also behind `items`, `values` and the
subset helpers): every row, in table order, decoded. -/
def DatasetWrapper.all (t : Table) : List (String × Entry) :=
  t.rows.map (fun r => (r.1, t.rowEntry r.2))

/-- Model of `DatasetWrapper.keys`. -/
def DatasetWrapper.keys (t : Table) : List String := t.rows.map (fun r => r.1)

/-! ## Criteria search -/

/-- One search criterion as `search(**criteria)` accepts it: a bare value
(exact equality) or a dict with any of the four predicate keys. -/
inductive Crit where
  | plain (v : Val)
  | spec (ex : Option Val) (like : Option String) (range : Option (Val × Val))
      (exB : Option Bool)

/-- One condition of the generated WHERE clause. -/
inductive Cond where
  | eqTo (col : String) (p : Val)
  | like (col : String) (pat : String)
  | between (col : String) (lo hi : Val)
  | notNull (col : String)

/-- The column a condition references. -/
def Cond.col : Cond → String
  | .eqTo c _ => c
  | .like c _ => c
  | .between c _ _ => c
  | .notNull c => c

/-- Conditions one keyword criterion contributes, in source order (exact,
like, range, exists; `exists: False` contributes nothing). -/
def condsOf (k : String) : Crit → List Cond
  | .plain v => [.eqTo k v]
  | .spec ex l r exB =>
    (ex.map (fun v => Cond.eqTo k v)).toList ++
      (l.map (fun s => Cond.like k s)).toList ++
      (r.map (fun p => Cond.between k p.1 p.2)).toList ++
      (match exB with
       | some true => [Cond.notNull k]
       | _ => [])

/-- The WHERE clause: every criterion's conditions, in criteria order. -/
def buildConds (criteria : List (String × Crit)) : List Cond :=
  (criteria.map (fun kc => condsOf kc.1 kc.2)).flatten

/-- Binding a Python value as a SQL parameter compared against a
TEXT-affinity column: `None` is NULL, an integer becomes its decimal text
(comparison affinity), a string is text; a dict or list is not a type
sqlite accepts as a parameter (`InterfaceError`). -/
def bindParam : Val → Except Err Cell
  | .null => .ok none
  | .int n => .ok (some (String.mk (intToChars n)))
  | .str s => .ok (some s)
  | .arr _ => .error .interfaceError
  | .obj _ => .error .interfaceError

/-- Byte order of sqlite's BINARY collation (codepoint order here). -/
def charsLe : List Char → List Char → Bool
  | [], _ => true
  | _ :: _, [] => false
  | a :: as, b :: bs => if a < b then true else if b < a then false else charsLe as bs

def textLe (a b : String) : Bool := charsLe a.data b.data

def hasPfxChars : List Char → List Char → Bool
  | [], _ => true
  | _ :: _, [] => false
  | a :: as, b :: bs => a == b && hasPfxChars as bs

def hasSubChars (needle : List Char) : List Char → Bool
  | [] => needle.isEmpty
  | c :: cs => hasPfxChars needle (c :: cs) || hasSubChars needle cs

/-- Semantics of `col LIKE '%' || pat || '%'` for a pattern without its own
wildcard characters: case-insensitive containment (sqlite LIKE is
ASCII-case-insensitive). -/
def likeContains (hay pat : String) : Bool :=
  hasSubChars pat.toLower.data hay.toLower.data

/-- Truth of one condition on one row; sqlite's three-valued logic collapsed
to "row selected", so any comparison against NULL selects nothing. -/
def evalCond (row : Row) : Cond → Bool
  | .eqTo c p =>
    match row c, bindParam p with
    | some a, .ok (some b) => a == b
    | _, _ => false
  | .like c pat =>
    match row c with
    | some a => likeContains a pat
    | none => false
  | .between c lo hi =>
    match row c, bindParam lo, bindParam hi with
    | some a, .ok (some bl), .ok (some bh) => textLe bl a && textLe a bh
    | _, _, _ => false
  | .notNull c => (row c).isSome

/-- Whether every parameter of a condition is a type sqlite can bind. -/
def Cond.paramsOk : Cond → Bool
  | .eqTo _ p =>
    match bindParam p with
    | .ok _ => true
    | .error _ => false
  | .like _ _ => true
  | .between _ lo hi =>
    match bindParam lo, bindParam hi with
    | .ok _, .ok _ => true
    | _, _ => false
  | .notNull _ => true

/-- Model of `DatasetWrapper.search`: the WHERE clause from the criteria in
order; an empty clause is invalid SQL (`OperationalError`), as is a
condition naming a column the table does not have, and a dict/list parameter
is an `InterfaceError`.  Otherwise: the rows satisfying every condition
(logical AND), in table order, decoded exactly as `__getitem__` decodes. -/
def DatasetWrapper.search (t : Table) (criteria : List (String × Crit)) :
    Except Err (List (String × Entry)) :=
  let conds := buildConds criteria
  if conds.isEmpty then .error .operationalError
  else if ¬ conds.all (fun c => t.columns.contains c.col) then .error .operationalError
  else if ¬ conds.all Cond.paramsOk then .error .interfaceError
  else
    .ok ((t.rows.filter (fun r => conds.all (evalCond r.2))).map
      (fun r => (r.1, t.rowEntry r.2)))

/-! ## Collections -/

/-- In-memory collection: the `collection_dict` of `MetadataCollection`, an
insertion-ordered mapping from key to attribute bag. -/
abbrev Collection := List (String × Entry)

/-- Python dict update of one key: replace the value in place when the key
is present, else append the pair. -/
def pyDictUpd {α : Type} (d : List (String × α)) (k : String) (v : α) :
    List (String × α) :=
  if d.any (fun kv => kv.1 == k) then
    d.map (fun kv => if kv.1 == k then (k, v) else kv)
  else d ++ [(k, v)]

/-- The dict a comprehension or a sequence of item-assignments builds. -/
def pyDictOfList {α : Type} (kvs : List (String × α)) : List (String × α) :=
  kvs.foldl (fun d kv => pyDictUpd d kv.1 kv.2) []

def Collection.lookupEntry (c : Collection) (k : String) : Option Entry :=
  (c.find? (fun kv => kv.1 == k)).map (fun kv => kv.2)

/-- Model of `MetadataCollection.get_subset_by_key`: the dict comprehension
indexes `self.collection_dict[key]` directly, so the first key not present
raises `KeyError`; when every key is present the result holds the requested
keys in request order (the miss branch of the lookup is unreachable then). -/
def MetadataCollection.get_subset_by_key (c : Collection) (ks : List String) :
    Except Err Collection :=
  if ks.all (fun k => c.any (fun kv => kv.1 == k)) then
    .ok (pyDictOfList (ks.map (fun k => (k, (c.lookupEntry k).getD []))))
  else .error .keyError

/-- Model of `MetadataCollection.get_subset_by_amount` for the non-negative
arguments the interface documents: the slice
`keys[start : start + amount]` of the ordered key sequence, or with
`reverse=True` the same slice of the reversed sequence, re-reversed so
forward order is preserved; then the dict of those keys (each present, so
the miss branch of the lookup is unreachable). -/
def MetadataCollection.get_subset_by_amount (c : Collection) (amount : Nat)
    (start : Nat) (reverse : Bool) : Collection :=
  let ks := c.map (fun kv => kv.1)
  let sel := if reverse then ((ks.reverse.drop start).take amount).reverse
             else (ks.drop start).take amount
  pyDictOfList (sel.map (fun k => (k, (c.lookupEntry k).getD [])))

/-- First `__bool__` of `MetadataCollection` (source line 205): the
conventional dict truthiness.  In a Python class body a later definition of
the same name replaces an earlier one, so this one is dead. -/
def MetadataCollection.bool_shadowed (c : Collection) : Bool := !c.isEmpty

/-- Second `__bool__` of `MetadataCollection` (source line 238), the one in
effect for every instance: true exactly when the collection is empty. -/
def MetadataCollection.__bool__ (c : Collection) : Bool := c.length == 0

/-! ## Export and import -/

/-- One flattened jsonl record, `{file_column_name: _filename, **metadata}`
(dict-literal update semantics: an attribute named like the key column would
overwrite the key's value in place). -/
def jsonlRecord (fc : String) (k : String) (e : Entry) : List (String × Val) :=
  e.foldl (fun d kv => pyDictUpd d kv.1 kv.2) [(fc, .str k)]

/-- Model of `MetadataCollection._export_jsonl`: one record per line, each
written by the JSON printer. -/
def MetadataCollection._export_jsonl (c : Collection) (fc : String) : List String :=
  c.map (fun kv => jsonDumps (.obj (jsonlRecord fc kv.1 kv.2)))

/-- Model of `MetadataCollection._export_json`: the whole collection as one
JSON document whose keys are the dataset keys. -/
def MetadataCollection._export_json (c : Collection) : String :=
  jsonDumps (.obj (c.map (fun kv => (kv.1, Val.obj kv.2))))

/-- Model of `DatasetWrapper._import_jsonl`: each line parsed back, then
written through `self[line[file_column_name]] = line` — the WHOLE record,
key column included, becomes the entry.  A line that is not a JSON object
fails in `jsonlines` / on `line.keys()`; a record without the key column
raises `KeyError`; a non-string key value is outside the modelled domain
(sqlite would coerce it through TEXT affinity; no claim exercises it). -/
def importJsonlStep (fc : String) (acc : Table) (l : String) : Except Err Table :=
  match jsonLoads l with
  | some (.obj kvs) =>
    match Entry.lookupVal kvs fc with
    | some (.str k) => DatasetWrapper.__setitem__ acc k kvs
    | some _ => .error .typeError
    | none => .error .keyError
  | _ => .error .typeError

def DatasetWrapper._import_jsonl (t : Table) (ls : List String) (fc : String) :
    Except Err Table :=
  ls.foldlM (fun acc l => importJsonlStep fc acc l) t

/-- Model of `DatasetWrapper._import_json`: parse the document, then
`self[key] = value` for each item; a value that is not itself an object has
no `.keys()` and fails inside `__setitem__`. -/
def DatasetWrapper._import_json (t : Table) (s : String) : Except Err Table :=
  match jsonLoads s with
  | some (.obj items) =>
    items.foldlM (fun acc kv =>
      match kv.2 with
      | .obj e => DatasetWrapper.__setitem__ acc kv.1 e
      | _ => .error .typeError) t
  | _ => .error .typeError

/-- A value whose stored text reads back as itself: every null, integer,
list and dict (the codec round-trip below), and every string that
`json.loads` does not re-interpret. -/
def Stable (v : Val) : Prop := readCell (DatasetWrapper._serialize v) = v

/-- An attribute bag `__setitem__` accepts: at least one attribute, no
duplicate names, and the reserved key column is not among them. -/
def EntryOK (e : Entry) : Prop :=
  e ≠ [] ∧ (e.map (fun kv => kv.1)).Nodup ∧
    "_filename" ∉ e.map (fun kv => kv.1)

/-- An entry the jsonl flattening keeps intact: acceptable to `__setitem__`
and free of the configured key-column name, so prepending `(fc, key)` does
not collide. -/
def RecordOK (fc : String) (e : Entry) : Prop :=
  EntryOK e ∧ fc ∉ e.map (fun kv => kv.1)

instance (v : Val) : Decidable (Stable v) := by
  unfold Stable
  infer_instance

instance (e : Entry) : Decidable (EntryOK e) := by
  unfold EntryOK
  infer_instance

instance (fc : String) (e : Entry) : Decidable (RecordOK fc e) := by
  unfold RecordOK
  infer_instance

/-! ## The store facade and transaction control -/

/-- A Python exception object. -/
inductive PyExc where
  | exc (nm : String) (msg : String)
deriving Repr, DecidableEq

/-- Model of the declaration at the bottom of metavault.py: it is written
`def NoManualCommitException(Exception):` — a FUNCTION, not a class.  Its
body is only a docstring, so calling it returns Python `None`. -/
def NoManualCommitException (_msg : String) : Option PyExc := none

/-- Outcome of a `raise e` statement. -/
inductive Raised where
  | typeErrorNotAnException : Raised
  | exc (e : PyExc) : Raised
deriving Repr, DecidableEq

/-- Python `raise`: an exception object propagates as itself; raising `None`
(which does not derive from BaseException) raises `TypeError: exceptions
must derive from BaseException` instead. -/
def pyRaise : Option PyExc → Raised
  | some e => .exc e
  | none => .typeErrorNotAnException

/-- Store state: the manual-commit flag and the named tables.  Uncommitted
work is not tracked (transaction begin/rollback is a passthrough the spec
scopes out); only the guard behaviour of the two entry points is modelled. -/
structure MetaVaultDatabase where
  manual_commit : Bool
  tables : List (String × Table)

/-- Model of `MetaVaultDatabase.begin_transaction`: without manual-commit
the guard raises (see `NoManualCommitException` and `pyRaise`) before any
statement reaches the connection, so the store is unchanged; with
manual-commit it issues `BEGIN TRANSACTION`. -/
def MetaVaultDatabase.begin_transaction (s : MetaVaultDatabase) :
    Option Raised × MetaVaultDatabase :=
  if s.manual_commit = false then
    (some (pyRaise (NoManualCommitException "Manual commit is not enabled.")), s)
  else (none, s)

/-- Model of `MetaVaultDatabase.rollback_transaction`, same guard. -/
def MetaVaultDatabase.rollback_transaction (s : MetaVaultDatabase) :
    Option Raised × MetaVaultDatabase :=
  if s.manual_commit = false then
    (some (pyRaise (NoManualCommitException "Manual commit is not enabled.")), s)
  else (none, s)

/-! ## Association-list helper lemmas -/

theorem find_of_mem_nodup {α : Type} :
    ∀ (l : List (String × α)), (l.map (fun kv => kv.1)).Nodup →
      ∀ {k : String} {a : α}, (k, a) ∈ l →
        l.find? (fun kv => kv.1 == k) = some (k, a) := by
  intro l
  induction l with
  | nil => intro _ k a hm; simp at hm
  | cons hd tl ih =>
    intro hnd k a hm
    simp only [List.map_cons, List.nodup_cons] at hnd
    rcases List.mem_cons.mp hm with rfl | hm
    · exact List.find?_cons_of_pos _ (by simp)
    · have hne : hd.1 ≠ k := by
        intro hkk
        exact hnd.1 (hkk ▸ (List.mem_map.mpr ⟨(k, a), hm, rfl⟩))
      rw [List.find?_cons_of_neg _ (by simpa using hne)]
      exact ih hnd.2 hm

theorem lookupVal_of_mem_nodup {e : Entry} (hnd : (e.map (fun kv => kv.1)).Nodup)
    {a : String} {v : Val} (hm : (a, v) ∈ e) : Entry.lookupVal e a = some v := by
  unfold Entry.lookupVal
  rw [find_of_mem_nodup e hnd hm]
  rfl

theorem lookupEntry_of_mem_nodup {c : Collection}
    (hnd : (c.map (fun kv => kv.1)).Nodup) {k : String} {e : Entry}
    (hm : (k, e) ∈ c) : c.lookupEntry k = some e := by
  unfold Collection.lookupEntry
  rw [find_of_mem_nodup c hnd hm]
  rfl

theorem lookupVal_isSome_iff_any (e : Entry) (a : String) :
    (Entry.lookupVal e a).isSome = e.any (fun kv => kv.1 == a) := by
  induction e with
  | nil => simp [Entry.lookupVal]
  | cons hd tl ih =>
    by_cases h : hd.1 == a
    · simp [Entry.lookupVal, List.find?_cons, h]
    · simp only [Entry.lookupVal, List.find?_cons, h, List.any_cons, Bool.false_or] at ih ⊢
      exact ih

theorem lookupEntry_isSome_iff_any (c : Collection) (k : String) :
    (c.lookupEntry k).isSome = c.any (fun kv => kv.1 == k) := by
  induction c with
  | nil => simp [Collection.lookupEntry]
  | cons hd tl ih =>
    by_cases h : hd.1 == k
    · simp [Collection.lookupEntry, List.find?_cons, h]
    · simp only [Collection.lookupEntry, List.find?_cons, h, List.any_cons,
        Bool.false_or, if_neg] at ih ⊢
      exact ih

/-! ## The claims -/

/-- C6 counterexample: the claim quantifies over every value the encoder
accepts, but for the plain string "123" (the encoder passes it through
unchanged) the decoder re-parses it as the integer 123, so
decode(encode(v)) differs from v. -/
theorem C6_counterexample :
    readCell (DatasetWrapper._serialize (Val.str "123")) = Val.int 123 ∧
      Val.str "123" ≠ Val.int 123 := by
  constructor
  · rfl
  · decide

/-- C6 (amended): for every structured value — a nested list or string-keyed
dict — the round trip through `_serialize` then `_deserialize` (as every
read path applies it) returns the value unchanged; plain strings that
themselves parse as JSON are the documented exception. -/
theorem C6_roundtrip_structured :
    (∀ xs : List Val, readCell (DatasetWrapper._serialize (Val.arr xs)) = Val.arr xs) ∧
    (∀ kvs : List (String × Val),
      readCell (DatasetWrapper._serialize (Val.obj kvs)) = Val.obj kvs) := by
  constructor
  · intro xs
    simp [DatasetWrapper._serialize, readCell, DatasetWrapper._deserialize,
      jsonLoads_jsonDumps]
  · intro kvs
    simp [DatasetWrapper._serialize, readCell, DatasetWrapper._deserialize,
      jsonLoads_jsonDumps]

/-- C7: `_deserialize` never raises — it is total, and for every input text
it either returns the parsed structured value (when the text parses as the
JSON encoding) or the original text unchanged. -/
theorem C7_deserialize_parse_or_identity :
    ∀ s : String,
      (∃ v, jsonLoads s = some v ∧ DatasetWrapper._deserialize s = v) ∨
      (jsonLoads s = none ∧ DatasetWrapper._deserialize s = Val.str s) := by
  intro s
  cases h : jsonLoads s with
  | none => exact Or.inr ⟨rfl, by simp [DatasetWrapper._deserialize, h]⟩
  | some v => exact Or.inl ⟨v, rfl, by simp [DatasetWrapper._deserialize, h]⟩

/-- C10: `MetadataCollection` defines `__bool__` twice, and in a Python class
body the later definition wins, so `bool(c)` is true exactly when the
collection is empty — the inversion of the shadowed first definition's
conventional container truthiness. -/
theorem C10_bool_true_iff_empty :
    ∀ c : Collection,
      (MetadataCollection.__bool__ c = true ↔ c.length = 0) ∧
      MetadataCollection.__bool__ c = !MetadataCollection.bool_shadowed c := by
  intro c
  constructor
  · simp [MetadataCollection.__bool__]
  · cases c <;> simp [MetadataCollection.__bool__, MetadataCollection.bool_shadowed]

/-- C5 (as the code behaves): with manual-commit disabled, both transaction
entry points raise before touching the connection, leaving the store
unchanged — but because `NoManualCommitException` is declared with `def`
rather than `class`, calling it returns `None`, and `raise None` surfaces as
`TypeError: exceptions must derive from BaseException`, not as the
configuration error the claim names. -/
theorem C5_guard_raises_typeerror :
    ∀ s : MetaVaultDatabase, s.manual_commit = false →
      s.begin_transaction = (some Raised.typeErrorNotAnException, s) ∧
      s.rollback_transaction = (some Raised.typeErrorNotAnException, s) := by
  intro s h
  constructor
  · simp [MetaVaultDatabase.begin_transaction, h, pyRaise, NoManualCommitException]
  · simp [MetaVaultDatabase.rollback_transaction, h, pyRaise, NoManualCommitException]

/-- C5 witness: a concrete store without manual-commit. -/
theorem C5_witness :
    MetaVaultDatabase.begin_transaction ⟨false, []⟩ =
      (some Raised.typeErrorNotAnException, (⟨false, []⟩ : MetaVaultDatabase)) :=
  (C5_guard_raises_typeerror ⟨false, []⟩ rfl).1

/-- C9: on a collection with ordered keys [a, b, c, d, e],
`get_subset_by_amount 2 (start := 0) (reverse := true)` takes the last two
entries, preserving forward key order: the result is [d, e] with their
entries. -/
theorem C9_subset_by_amount_reverse :
    ∀ (a b c d e : String) (va vb vc vd ve : Entry),
      ([a, b, c, d, e] : List String).Nodup →
      MetadataCollection.get_subset_by_amount
        [(a, va), (b, vb), (c, vc), (d, vd), (e, ve)] 2 0 true =
        [(d, vd), (e, ve)] := by
  intro a b c d e va vb vc vd ve hnd
  simp only [List.nodup_cons, List.mem_cons, List.mem_singleton,
    List.not_mem_nil, or_false, not_or, List.nodup_nil, and_true] at hnd
  obtain ⟨⟨hab, hac, had, hae⟩, ⟨hbc, hbd, hbe⟩, ⟨hcd, hce⟩, hde, -⟩ := hnd
  have hlookd : Collection.lookupEntry
      [(a, va), (b, vb), (c, vc), (d, vd), (e, ve)] d = some vd := by
    simp [Collection.lookupEntry, List.find?_cons, beq_eq_false_iff_ne.mpr had,
      beq_eq_false_iff_ne.mpr hbd, beq_eq_false_iff_ne.mpr hcd]
  have hlooke : Collection.lookupEntry
      [(a, va), (b, vb), (c, vc), (d, vd), (e, ve)] e = some ve := by
    simp [Collection.lookupEntry, List.find?_cons, beq_eq_false_iff_ne.mpr hae,
      beq_eq_false_iff_ne.mpr hbe, beq_eq_false_iff_ne.mpr hce,
      beq_eq_false_iff_ne.mpr hde]
  unfold MetadataCollection.get_subset_by_amount
  show pyDictOfList
      [(d, (Collection.lookupEntry
        [(a, va), (b, vb), (c, vc), (d, vd), (e, ve)] d).getD []),
       (e, (Collection.lookupEntry
        [(a, va), (b, vb), (c, vc), (d, vd), (e, ve)] e).getD [])] =
    [(d, vd), (e, ve)]
  rw [hlookd, hlooke]
  simp [pyDictOfList, pyDictUpd, hde]

/-- C9 witness: concrete keys and entries. -/
theorem C9_witness :
    MetadataCollection.get_subset_by_amount
      [("a", []), ("b", []), ("c", []), ("d", [("x", Val.int 1)]), ("e", [])]
      2 0 true = [("d", [("x", Val.int 1)]), ("e", [])] :=
  C9_subset_by_amount_reverse "a" "b" "c" "d" "e" [] [] []
    [("x", Val.int 1)] [] (by decide)

theorem pyDictOfList_append_acc {α : Type} :
    ∀ (kvs : List (String × α)) (acc : List (String × α)),
      (kvs.map (fun kv => kv.1)).Nodup →
      (∀ kv ∈ kvs, acc.any (fun kv2 => kv2.1 == kv.1) = false) →
      kvs.foldl (fun d kv => pyDictUpd d kv.1 kv.2) acc = acc ++ kvs := by
  intro kvs
  induction kvs with
  | nil => intro acc _ _; simp
  | cons kv kvs ih =>
    intro acc hnd hdisj
    simp only [List.map_cons, List.nodup_cons] at hnd
    have hstep : pyDictUpd acc kv.1 kv.2 = acc ++ [kv] := by
      simp [pyDictUpd, hdisj kv (List.mem_cons_self kv kvs)]
    rw [List.foldl_cons, hstep, ih (acc ++ [kv]) hnd.2 ?disj, List.append_assoc,
      List.singleton_append]
    case disj =>
      intro kv' hkv'
      rw [List.any_append]
      have h1 : acc.any (fun kv2 => kv2.1 == kv'.1) = false :=
        hdisj kv' (List.mem_cons_of_mem kv hkv')
      have h2 : (kv.1 == kv'.1) = false := by
        rw [beq_eq_false_iff_ne]
        intro hkk
        exact hnd.1 (hkk ▸ (List.mem_map.mpr ⟨kv', hkv', rfl⟩))
      simp [h1, h2]

theorem pyDictOfList_nodup {α : Type} (kvs : List (String × α))
    (h : (kvs.map (fun kv => kv.1)).Nodup) : pyDictOfList kvs = kvs := by
  simpa using pyDictOfList_append_acc kvs [] h (by simp)

/-- C4 counterexample: the claim says keys not present in the collection are
silently omitted, but the dict comprehension indexes the backing dict
directly, so the missing key "b" raises `KeyError`. -/
theorem C4_counterexample :
    MetadataCollection.get_subset_by_key [("a", [("x", Val.int 1)])] ["a", "b"] =
      .error .keyError := rfl

/-- C4 (amended): when every requested key is present, `get_subset_by_key`
returns a new collection holding exactly the requested keys, in request
order, with their entries; a requested key that is absent raises `KeyError`
instead of being silently omitted. -/
theorem C4_subset_by_key_all_or_keyerror :
    ∀ (c : Collection) (ks : List String),
      (ks.Nodup → (∀ k ∈ ks, (c.lookupEntry k).isSome = true) →
        MetadataCollection.get_subset_by_key c ks =
          .ok (ks.map (fun k => (k, (c.lookupEntry k).getD [])))) ∧
      ((∃ k ∈ ks, c.lookupEntry k = none) →
        MetadataCollection.get_subset_by_key c ks = .error .keyError) := by
  intro c ks
  constructor
  · intro hnd hall
    have hguard : ks.all (fun k => c.any (fun kv => kv.1 == k)) = true := by
      rw [List.all_eq_true]
      intro k hk
      rw [← lookupEntry_isSome_iff_any]
      exact hall k hk
    unfold MetadataCollection.get_subset_by_key
    rw [if_pos hguard]
    congr 1
    apply pyDictOfList_nodup
    have : (ks.map (fun k => (k, (c.lookupEntry k).getD []))).map
        (fun kv => kv.1) = ks := by
      rw [List.map_map]
      exact List.map_id ks
    rw [this]
    exact hnd
  · rintro ⟨k, hk, hnone⟩
    have hguard : ks.all (fun k => c.any (fun kv => kv.1 == k)) = false := by
      rw [List.all_eq_false]
      refine ⟨k, hk, ?_⟩
      rw [← lookupEntry_isSome_iff_any, hnone]
      simp
    unfold MetadataCollection.get_subset_by_key
    rw [if_neg (by simp [hguard])]

/-- C4 witness: a concrete collection and a fully present key list. -/
theorem C4_witness :
    MetadataCollection.get_subset_by_key
      [("a", [("x", Val.int 1)]), ("b", [])] ["b"] = .ok [("b", [])] :=
  (C4_subset_by_key_all_or_keyerror [("a", [("x", Val.int 1)]), ("b", [])]
    ["b"]).1 (by decide) (by decide)

theorem findIdx_get_nodup :
    ∀ (l : List String), l.Nodup → ∀ (i : Nat) (h : i < l.length) (j : Nat),
      List.findIdx? (fun c => c == l.get ⟨i, h⟩) l j = some (j + i) := by
  intro l
  induction l with
  | nil => intro _ i h; simp at h
  | cons hd tl ih =>
    intro hnd i h j
    rw [List.nodup_cons] at hnd
    cases i with
    | zero => simp [List.findIdx?_cons]
    | succ i =>
      have hget : (hd :: tl).get ⟨i + 1, h⟩ = tl.get ⟨i, by simpa using h⟩ := rfl
      have hne : (hd == (hd :: tl).get ⟨i + 1, h⟩) = false := by
        rw [hget, beq_eq_false_iff_ne]
        intro heq
        exact hnd.1 (heq ▸ tl.get_mem _ _)
      rw [List.findIdx?_cons, hne]
      simp only [if_false, Bool.false_eq_true]
      rw [hget, ih hnd.2 i (by simpa using h) (j + 1)]
      congr 1
      omega

theorem find_filter_ne {α : Type} (rows : List (String × α)) {k j : String}
    (h : k ≠ j) :
    (rows.filter (fun r => r.1 != j)).find? (fun r => r.1 == k) =
      rows.find? (fun r => r.1 == k) := by
  induction rows with
  | nil => rfl
  | cons r rows ih =>
    by_cases hj : r.1 = j
    · rw [List.filter_cons_of_neg (by simp [hj]),
        List.find?_cons_of_neg _ (by rw [hj]; simp [beq_iff_eq]; exact fun hh => h hh.symm)]
      exact ih
    · rw [List.filter_cons_of_pos (by simp [hj])]
      by_cases hk : r.1 = k
      · rw [List.find?_cons_of_pos _ (by simp [hk]),
          List.find?_cons_of_pos _ (by simp [hk])]
      · rw [List.find?_cons_of_neg _ (by simp [hk]),
          List.find?_cons_of_neg _ (by simp [hk])]
        exact ih

theorem find_filter_self {α : Type} (rows : List (String × α)) (k : String) :
    (rows.filter (fun r => r.1 != k)).find? (fun r => r.1 == k) = none := by
  rw [List.find?_eq_none]
  intro x hx
  have := List.of_mem_filter hx
  simp only [bne_iff_ne, ne_eq] at this
  simp [this]

theorem batch_fold_find_not_mem (cols : List String) :
    ∀ (entries : List (String × Entry)) (rows : List (String × Row)) (k : String),
      ((entries.map (fun pe => pe.1)).contains k) = false →
      ((entries.foldl (fun rows pe =>
          rows.filter (fun r => r.1 != pe.1) ++ [(pe.1, batchRow cols pe.1 pe.2)])
          rows).find? (fun r => r.1 == k)) = rows.find? (fun r => r.1 == k) := by
  intro entries
  induction entries with
  | nil => intro rows k _; rfl
  | cons pe tl ih =>
    intro rows k hk
    simp only [List.map_cons, List.contains_cons, Bool.or_eq_false_iff,
      beq_eq_false_iff_ne] at hk
    rw [List.foldl_cons, ih _ k hk.2, List.find?_append,
      find_filter_ne (k := k) (j := pe.1) rows hk.1]
    have hsingle : List.find? (fun r => r.1 == k) [(pe.1, batchRow cols pe.1 pe.2)] =
        none := by
      rw [List.find?_eq_none]
      intro x hx
      simp only [List.mem_singleton] at hx
      simp only [hx, beq_iff_eq]
      exact fun hh => hk.1 hh.symm
    rw [hsingle, Option.or_none]

theorem batch_fold_find_mem (cols : List String) :
    ∀ (entries : List (String × Entry)) (rows : List (String × Row)),
      ((entries.map (fun pe => pe.1)).Nodup) →
      ∀ {k : String} {e : Entry}, (k, e) ∈ entries →
      ((entries.foldl (fun rows pe =>
          rows.filter (fun r => r.1 != pe.1) ++ [(pe.1, batchRow cols pe.1 pe.2)])
          rows).find? (fun r => r.1 == k)) = some (k, batchRow cols k e) := by
  intro entries
  induction entries with
  | nil => intro _ _ k e hm; simp at hm
  | cons pe tl ih =>
    intro rows hnd k e hm
    simp only [List.map_cons, List.nodup_cons] at hnd
    rcases List.mem_cons.mp hm with rfl | hm
    · rw [List.foldl_cons,
        batch_fold_find_not_mem cols tl _ k (by simp [hnd.1]),
        List.find?_append, find_filter_self]
      simp [List.find?_cons]
    · exact ih _ hnd.2 hm

/-- C2 counterexample: the claim says the column set of the first entry is
added to the table when missing, but `batch_insert` contains no
column-adding step, so inserting an entry whose attribute "a" is not yet a
column fails with the engine's no-such-column error instead of adding it. -/
theorem C2_counterexample :
    DatasetWrapper.batch_insert emptyTable [("f1", [("a", Val.int 1)])] =
      .error Err.operationalError := rfl

theorem batch_insert_ok (t : Table) (k0 : String) (e0 : Entry)
    (tl : List (String × Entry))
    (hne : e0.isEmpty = false)
    (hnf : (e0.map (fun kv => kv.1)).contains "_filename" = false)
    (hnd0 : (e0.map (fun kv => kv.1)).Nodup)
    (hb3 : ((e0.map (fun kv => kv.1)).all fun c => t.columns.contains c) = true)
    (hb4 : (((k0, e0) :: tl).all fun pe =>
      pe.2.length = (e0.map (fun kv => kv.1)).length) = true) :
    DatasetWrapper.batch_insert t ((k0, e0) :: tl) =
      .ok ⟨t.columns, ((k0, e0) :: tl).foldl (fun rows pe =>
        rows.filter (fun r => r.1 != pe.1) ++
          [(pe.1, batchRow (e0.map (fun kv => kv.1)) pe.1 pe.2)]) t.rows⟩ := by
  rw [DatasetWrapper.batch_insert]
  simp only [hne, hnf, hnd0, hb3, hb4, Bool.false_eq_true, not_true, not_false_eq_true,
    if_false, if_true, ite_false, ite_true, not_true_eq_false]

/-- C2 (amended): `batch_insert` is a no-op on an empty mapping; on a
non-empty mapping it takes the column set from the first entry only and does
NOT add missing columns (a first-entry column absent from the table is an
engine error, see the counterexample).  An EMPTY first entry leaves a
trailing comma in the generated column list, invalid SQL, so the engine
raises its operational error.  When the first entry is non-empty, its
columns all exist and every entry supplies the same number of values, it
performs one multi-row insert-or-replace: each written row holds its entry's
values bound positionally against the first entry's columns, every other
column of a written row is reset to null, the table's column set is
unchanged, and rows of untouched keys are untouched. -/
theorem C2_batch_insert_first_entry_columns :
    (∀ t : Table, DatasetWrapper.batch_insert t [] = .ok t) ∧
    (∀ (t : Table) (k0 : String) (tl : List (String × Entry)),
      DatasetWrapper.batch_insert t ((k0, []) :: tl) =
        .error .operationalError) ∧
    (∀ (t : Table) (k0 : String) (e0 : Entry) (tl : List (String × Entry)),
      e0 ≠ [] →
      (e0.map (fun kv => kv.1)).Nodup →
      (e0.map (fun kv => kv.1)).contains "_filename" = false →
      (∀ c ∈ e0.map (fun kv => kv.1), t.columns.contains c = true) →
      (∀ pe ∈ (k0, e0) :: tl, pe.2.length = e0.length) →
      (((k0, e0) :: tl).map (fun pe => pe.1)).Nodup →
      ∃ t', DatasetWrapper.batch_insert t ((k0, e0) :: tl) = .ok t' ∧
        t'.columns = t.columns ∧
        (∀ pe ∈ (k0, e0) :: tl,
          t'.findRow pe.1 =
            some (batchRow (e0.map (fun kv => kv.1)) pe.1 pe.2)) ∧
        (∀ pe ∈ (k0, e0) :: tl,
          ∀ (i : Nat) (hi : i < (e0.map (fun kv => kv.1)).length)
            (hj : i < pe.2.length),
          t'.readAttr pe.1 ((e0.map (fun kv => kv.1)).get ⟨i, hi⟩) =
            some (readCell (DatasetWrapper._serialize (pe.2.get ⟨i, hj⟩).2))) ∧
        (∀ pe ∈ (k0, e0) :: tl, ∀ c, c ≠ "_filename" →
          (e0.map (fun kv => kv.1)).contains c = false →
          t'.readAttr pe.1 c = some Val.null) ∧
        (∀ k, (((k0, e0) :: tl).map (fun pe => pe.1)).contains k = false →
          t'.findRow k = t.findRow k)) := by
  refine ⟨fun t => rfl, fun t k0 tl => rfl, ?_⟩
  · intro t k0 e0 tl hne0 hnd0 hnf hcols hlens hknd
    have hne : e0.isEmpty = false := by
      cases e0 with
      | nil => exact absurd rfl hne0
      | cons a l => rfl
    have hb3 : ((e0.map (fun kv => kv.1)).all fun c => t.columns.contains c) = true := by
      rw [List.all_eq_true]
      exact hcols
    have hb4 : (((k0, e0) :: tl).all fun pe =>
        pe.2.length = (e0.map (fun kv => kv.1)).length) = true := by
      rw [List.all_eq_true]
      intro pe hpe
      simp only [List.length_map, decide_eq_true_eq]
      exact hlens pe hpe
    refine ⟨_, batch_insert_ok t k0 e0 tl hne hnf hnd0 hb3 hb4, rfl, ?_, ?_, ?_, ?_⟩
    · intro pe hpe
      show Table.findRow _ pe.1 = _
      unfold Table.findRow
      show ((((k0, e0) :: tl).foldl _ t.rows).find? fun r => r.1 == pe.1).map _ = _
      rw [batch_fold_find_mem (e0.map (fun kv => kv.1)) _ t.rows hknd
        (show (pe.1, pe.2) ∈ (k0, e0) :: tl from by simpa using hpe)]
      rfl
    · intro pe hpe i hi hj
      unfold Table.readAttr Table.findRow
      show ((((((k0, e0) :: tl).foldl _ t.rows).find? fun r => r.1 == pe.1).map _).map _) = _
      rw [batch_fold_find_mem (e0.map (fun kv => kv.1)) _ t.rows hknd
        (show (pe.1, pe.2) ∈ (k0, e0) :: tl from by simpa using hpe)]
      simp only [Option.map_some']
      congr 1
      unfold batchRow
      have hcne : ((e0.map (fun kv => kv.1)).get ⟨i, hi⟩ == "_filename") = false := by
        rw [beq_eq_false_iff_ne]
        intro heq
        simp only [List.contains_eq_any_beq, List.any_eq_false] at hnf
        exact hnf ((e0.map (fun kv => kv.1)).get ⟨i, hi⟩) (List.get_mem _ i hi)
          (by rw [beq_iff_eq]; exact heq.symm)
      rw [hcne]
      simp only [Bool.false_eq_true, if_false]
      rw [findIdx_get_nodup _ hnd0 i hi 0]
      simp only [Nat.zero_add]
      rw [List.get?_eq_get hj]
    · intro pe hpe c hcf hcc
      unfold Table.readAttr Table.findRow
      show ((((((k0, e0) :: tl).foldl _ t.rows).find? fun r => r.1 == pe.1).map _).map _) = _
      rw [batch_fold_find_mem (e0.map (fun kv => kv.1)) _ t.rows hknd
        (show (pe.1, pe.2) ∈ (k0, e0) :: tl from by simpa using hpe)]
      simp only [Option.map_some']
      congr 1
      unfold batchRow
      rw [show (c == "_filename") = false from by
        rw [beq_eq_false_iff_ne]; exact hcf]
      simp only [Bool.false_eq_true, if_false]
      have hidx : (e0.map (fun kv => kv.1)).findIdx? (fun c2 => c2 == c) = none := by
        rw [List.findIdx?_eq_none_iff]
        intro x hx
        simp only [List.contains_eq_any_beq, List.any_eq_false] at hcc
        rw [beq_eq_false_iff_ne]
        exact fun hxc => (by simpa using hcc x hx : ¬c = x) hxc.symm
      rw [hidx]
      rfl
    · intro k hk
      unfold Table.findRow
      show ((((k0, e0) :: tl).foldl _ t.rows).find? fun r => r.1 == k).map _ =
        (t.rows.find? fun r => r.1 == k).map _
      rw [batch_fold_find_not_mem (e0.map (fun kv => kv.1)) _ t.rows k hk]

/-- C2 witness: a concrete batch on a table that already has the needed
column; the column absent from the batch's column list reads back null. -/
theorem C2_witness :
    ∃ t', DatasetWrapper.batch_insert (⟨["_filename", "a", "b"], []⟩ : Table)
        [("f1", [("a", Val.int 1)])] = .ok t' ∧
      t'.readAttr "f1" "b" = some Val.null := by
  obtain ⟨t', h1, -, -, -, h5, -⟩ :=
    C2_batch_insert_first_entry_columns.2.2 ⟨["_filename", "a", "b"], []⟩ "f1"
      [("a", Val.int 1)] [] (by decide) (by decide) (by decide) (by decide)
      (by decide) (by decide)
  exact ⟨t', h1, h5 ("f1", [("a", Val.int 1)]) (by simp) "b" (by decide) (by decide)⟩

/-- Rows with attribute "age" stored as `set` stores the integers
20, 27, 30, 35 (TEXT affinity: their decimal texts). -/
def agesTable : Table :=
  ⟨["_filename", "age"],
   [("f20", insertRow "f20" [("age", Val.int 20)]),
    ("f27", insertRow "f27" [("age", Val.int 27)]),
    ("f30", insertRow "f30" [("age", Val.int 30)]),
    ("f35", insertRow "f35" [("age", Val.int 35)])]⟩

theorem search_ok_elim {t : Table} {criteria : List (String × Crit)}
    {res : List (String × Entry)}
    (h : DatasetWrapper.search t criteria = .ok res) :
    res = (t.rows.filter (fun r => (buildConds criteria).all (evalCond r.2))).map
      (fun r => (r.1, t.rowEntry r.2)) := by
  unfold DatasetWrapper.search at h
  dsimp only at h
  split_ifs at h
  exact (Except.ok.inj h).symm

theorem eq_of_fst_eq_nodup {α : Type} :
    ∀ {l : List (String × α)}, (l.map (fun kv => kv.1)).Nodup →
      ∀ {x y : String × α}, x ∈ l → y ∈ l → x.1 = y.1 → x = y := by
  intro l
  induction l with
  | nil => intro _ x y hx; simp at hx
  | cons z l ih =>
    intro hnd x y hx hy hfst
    simp only [List.map_cons, List.nodup_cons] at hnd
    rcases List.mem_cons.mp hx with rfl | hx2
    · rcases List.mem_cons.mp hy with rfl | hy2
      · rfl
      · exact absurd (List.mem_map.mpr ⟨y, hy2, hfst.symm⟩) hnd.1
    · rcases List.mem_cons.mp hy with rfl | hy2
      · exact absurd (List.mem_map.mpr ⟨x, hx2, hfst⟩) hnd.1
      · exact ih hnd.2 hx2 hy2 hfst


/-- C8: searching the concrete four-row ages dataset with
range [25, 30] returns exactly the rows with ages 27 and 30 (both bounds
inclusive); and for any table with distinct keys, the result of a two-
criteria search holds exactly the entries present in both single-criterion
results (logical AND). -/
theorem C8_search_range_inclusive_and :
    (DatasetWrapper.search agesTable
        [("age", Crit.spec none none (some (Val.int 25, Val.int 30)) none)] =
      .ok [("f27", [("age", Val.int 27)]), ("f30", [("age", Val.int 30)])]) ∧
    (∀ (t : Table) (k1 k2 : String) (c1 c2 : Crit)
        (res r1 r2 : List (String × Entry)),
      (t.rows.map (fun r => r.1)).Nodup →
      DatasetWrapper.search t [(k1, c1), (k2, c2)] = .ok res →
      DatasetWrapper.search t [(k1, c1)] = .ok r1 →
      DatasetWrapper.search t [(k2, c2)] = .ok r2 →
      ∀ p, p ∈ res ↔ (p ∈ r1 ∧ p ∈ r2)) := by
  constructor
  · rfl
  · intro t k1 k2 c1 c2 res r1 r2 hnd hres h1 h2 p
    rw [search_ok_elim hres, search_ok_elim h1, search_ok_elim h2]
    have hsplit : buildConds [(k1, c1), (k2, c2)] =
        condsOf k1 c1 ++ condsOf k2 c2 := by
      simp [buildConds]
    have hone1 : buildConds [(k1, c1)] = condsOf k1 c1 := by simp [buildConds]
    have hone2 : buildConds [(k2, c2)] = condsOf k2 c2 := by simp [buildConds]
    rw [hsplit, hone1, hone2]
    constructor
    · intro hp
      obtain ⟨r, hr, hfr⟩ := List.mem_map.mp hp
      obtain ⟨hrm, hall⟩ := List.mem_filter.mp hr
      rw [List.all_append, Bool.and_eq_true] at hall
      exact ⟨List.mem_map.mpr ⟨r, List.mem_filter.mpr ⟨hrm, hall.1⟩, hfr⟩,
        List.mem_map.mpr ⟨r, List.mem_filter.mpr ⟨hrm, hall.2⟩, hfr⟩⟩
    · rintro ⟨hp1, hp2⟩
      obtain ⟨r, hr, hfr⟩ := List.mem_map.mp hp1
      obtain ⟨r', hr', hfr'⟩ := List.mem_map.mp hp2
      obtain ⟨hrm, hall1⟩ := List.mem_filter.mp hr
      obtain ⟨hrm', hall2⟩ := List.mem_filter.mp hr'
      have hrr : r = r' := by
        apply eq_of_fst_eq_nodup hnd hrm hrm'
        have : r.1 = p.1 := congrArg Prod.fst hfr
        have h2' : r'.1 = p.1 := congrArg Prod.fst hfr'
        rw [this, h2']
      subst hrr
      refine List.mem_map.mpr ⟨r, List.mem_filter.mpr ⟨hrm, ?_⟩, hfr⟩
      rw [List.all_append, Bool.and_eq_true]
      exact ⟨hall1, hall2⟩

/-- C8 witness: the AND of an exact criterion and the range criterion on the
concrete ages dataset. -/
theorem C8_witness :
    (("f27", [("age", Val.int 27)]) ∈
        ([("f27", [("age", Val.int 27)])] : List (String × Entry))) ↔
      ((("f27", [("age", Val.int 27)]) ∈
        ([("f27", [("age", Val.int 27)])] : List (String × Entry))) ∧
       (("f27", [("age", Val.int 27)]) ∈
        ([("f27", [("age", Val.int 27)]), ("f30", [("age", Val.int 30)])] :
          List (String × Entry)))) :=
  C8_search_range_inclusive_and.2 agesTable "age" "age"
    (Crit.spec (some (Val.int 27)) none none none)
    (Crit.spec none none (some (Val.int 25, Val.int 30)) none)
    [("f27", [("age", Val.int 27)])]
    [("f27", [("age", Val.int 27)])]
    [("f27", [("age", Val.int 27)]), ("f30", [("age", Val.int 30)])]
    (by decide) rfl rfl rfl ("f27", [("age", Val.int 27)])

/-! ## C1: set then get -/

theorem lookupVal_map_keys (l : List String) (f : String → Val) (a : String) :
    Entry.lookupVal (l.map (fun c => (c, f c))) a =
      if a ∈ l then some (f a) else none := by
  induction l with
  | nil => simp [Entry.lookupVal]
  | cons c l ih =>
    by_cases hca : c = a
    · subst hca
      simp [Entry.lookupVal, List.find?_cons_of_pos _ (show ((c, f c).1 == c) from by simp)]
    · rw [List.map_cons, show Entry.lookupVal ((c, f c) :: l.map (fun c => (c, f c))) a =
        Entry.lookupVal (l.map (fun c => (c, f c))) a from by
          unfold Entry.lookupVal
          rw [List.find?_cons_of_neg _ (by simpa using hca)], ih]
      simp [List.mem_cons, show ¬a = c from fun h => hca h.symm]

theorem lookupVal_rowEntry (t : Table) (row : Row) (a : String) :
    Entry.lookupVal (t.rowEntry row) a =
      if a ∈ t.columns.filter (fun c => c ≠ "_filename") then
        some (readCell (row a))
      else none := by
  unfold Table.rowEntry
  exact lookupVal_map_keys _ (fun c => readCell (row c)) a

theorem jsonlRecord_shape (fc k : String) (e : Entry)
    (hnd : (e.map (fun kv => kv.1)).Nodup)
    (hfc : fc ∉ e.map (fun kv => kv.1)) :
    jsonlRecord fc k e = (fc, Val.str k) :: e := by
  unfold jsonlRecord
  have h := pyDictOfList_append_acc e [(fc, Val.str k)] hnd ?disj
  · simpa using h
  case disj =>
    intro kv hkv
    simp only [List.any_cons, List.any_nil, Bool.or_false]
    rw [beq_eq_false_iff_ne]
    intro h
    exact hfc (h ▸ List.mem_map.mpr ⟨kv, hkv, rfl⟩)

theorem lookupVal_cons_self (fc : String) (v : Val) (e : Entry) :
    Entry.lookupVal ((fc, v) :: e) fc = some v := by
  unfold Entry.lookupVal
  rw [List.find?_cons_of_pos (p := fun kv : String × Val => kv.1 == fc) _ (by simp)]
  rfl

theorem setitem_fresh (t : Table) (k : String) (e : Entry) (hok : EntryOK e)
    (hfresh : t.rows.any (fun r => r.1 == k) = false) :
    DatasetWrapper.__setitem__ t k e =
      .ok { columns := t.columns ++ (e.map (fun kv => kv.1)).filter
              (fun c => ¬ t.columns.contains c),
            rows := t.rows ++ [(k, insertRow k e)] } := by
  obtain ⟨hne, hnd, hnf⟩ := hok
  unfold DatasetWrapper.__setitem__
  rw [if_neg (show ¬ (e.isEmpty = true) from by
      cases e with
      | nil => exact absurd rfl hne
      | cons a l => simp),
    if_neg (show ¬ ((e.map (fun kv => kv.1)).contains "_filename" = true) from by
      intro hcon
      exact hnf (by simpa using hcon)),
    if_neg (not_not.mpr hnd)]
  dsimp only
  rw [if_neg (show ¬ (t.rows.any (fun r => r.1 == k) = true) from by
      rw [hfresh]; exact Bool.false_ne_true)]

theorem importJsonlStep_record (fc k : String) (e : Entry)
    (hnd : (e.map (fun kv => kv.1)).Nodup) (hfc : fc ∉ e.map (fun kv => kv.1))
    (t : Table) :
    importJsonlStep fc t (jsonDumps (.obj (jsonlRecord fc k e))) =
      DatasetWrapper.__setitem__ t k ((fc, Val.str k) :: e) := by
  unfold importJsonlStep
  rw [jsonlRecord_shape fc k e hnd hfc, jsonLoads_jsonDumps]
  dsimp only
  rw [lookupVal_cons_self]

theorem import_jsonl_as_fold (fc : String) :
    ∀ (c : Collection) (t : Table), (∀ kv ∈ c, RecordOK fc kv.2) →
      DatasetWrapper._import_jsonl t (MetadataCollection._export_jsonl c fc) fc =
        (c.map (fun kv => (kv.1, (fc, Val.str kv.1) :: kv.2))).foldlM
          (fun acc kv => DatasetWrapper.__setitem__ acc kv.1 kv.2) t := by
  intro c
  induction c with
  | nil => intro t _; rfl
  | cons kv0 rest ih =>
    intro t hok
    obtain ⟨⟨hne0, hnd0, hnf0⟩, hfc0⟩ := hok kv0 (List.mem_cons_self kv0 rest)
    show (MetadataCollection._export_jsonl (kv0 :: rest) fc).foldlM
        (fun acc l => importJsonlStep fc acc l) t = _
    rw [show MetadataCollection._export_jsonl (kv0 :: rest) fc =
        jsonDumps (.obj (jsonlRecord fc kv0.1 kv0.2)) ::
          MetadataCollection._export_jsonl rest fc from rfl]
    rw [List.foldlM_cons, List.map_cons, List.foldlM_cons]
    rw [importJsonlStep_record fc kv0.1 kv0.2 hnd0 hfc0 t]
    cases hset : DatasetWrapper.__setitem__ t kv0.1 ((fc, Val.str kv0.1) :: kv0.2) with
    | error err => rfl
    | ok t1 =>
      show DatasetWrapper._import_jsonl t1
        (MetadataCollection._export_jsonl rest fc) fc = _
      exact ih t1 (fun kv hkv => hok kv (List.mem_cons_of_mem kv0 hkv))

theorem import_json_as_fold :
    ∀ (c : Collection) (t : Table),
      DatasetWrapper._import_json t (MetadataCollection._export_json c) =
        c.foldlM (fun acc kv => DatasetWrapper.__setitem__ acc kv.1 kv.2) t := by
  intro c t
  unfold DatasetWrapper._import_json MetadataCollection._export_json
  rw [jsonLoads_jsonDumps]
  dsimp only
  induction c generalizing t with
  | nil => rfl
  | cons kv0 rest ih =>
    rw [List.map_cons, List.foldlM_cons, List.foldlM_cons]
    dsimp only
    cases hset : DatasetWrapper.__setitem__ t kv0.1 kv0.2 with
    | error err => rfl
    | ok t1 => exact ih t1

theorem setitem_fold :
    ∀ (items : List (String × Entry)) (t : Table),
      (∀ kv ∈ items, EntryOK kv.2) →
      ((items.map (fun kv => kv.1)).Nodup) →
      (∀ kv ∈ items, t.rows.any (fun r => r.1 == kv.1) = false) →
      ∃ t', items.foldlM (fun acc kv => DatasetWrapper.__setitem__ acc kv.1 kv.2) t
          = .ok t' ∧
        t'.rows = t.rows ++ items.map (fun kv => (kv.1, insertRow kv.1 kv.2)) ∧
        (∀ a, a ∈ t.columns → a ∈ t'.columns) ∧
        (∀ kv ∈ items, ∀ a, a ∈ kv.2.map (fun p => p.1) → a ∈ t'.columns) := by
  intro items
  induction items with
  | nil => intro t _ _ _; exact ⟨t, rfl, by simp, fun a ha => ha, by simp⟩
  | cons kv0 rest ih =>
    intro t hok hnd hfresh
    simp only [List.map_cons, List.nodup_cons] at hnd
    have hok0 := hok kv0 (List.mem_cons_self kv0 rest)
    have hset := setitem_fresh t kv0.1 kv0.2 hok0
      (hfresh kv0 (List.mem_cons_self kv0 rest))
    have hfresh1 : ∀ kv ∈ rest,
        (({ columns := t.columns ++ (kv0.2.map (fun kv => kv.1)).filter
              (fun c => ¬ t.columns.contains c),
            rows := t.rows ++ [(kv0.1, insertRow kv0.1 kv0.2)] } : Table)).rows.any
          (fun r => r.1 == kv.1) = false := by
      intro kv hkv
      have h1 := hfresh kv (List.mem_cons_of_mem kv0 hkv)
      have h2 : (kv0.1 == kv.1) = false := by
        rw [beq_eq_false_iff_ne]
        intro he
        exact hnd.1 (he ▸ List.mem_map.mpr ⟨kv, hkv, rfl⟩)
      simp [List.any_append, h1, h2]
    obtain ⟨t2, hfold, hrows, hmono, hmem⟩ :=
      ih { columns := t.columns ++ (kv0.2.map (fun kv => kv.1)).filter
              (fun c => ¬ t.columns.contains c),
            rows := t.rows ++ [(kv0.1, insertRow kv0.1 kv0.2)] }
        (fun kv hkv => hok kv (List.mem_cons_of_mem kv0 hkv)) hnd.2 hfresh1
    refine ⟨t2, ?_, ?_, ?_, ?_⟩
    · rw [List.foldlM_cons, hset]
      exact hfold
    · rw [hrows]
      dsimp only
      rw [List.append_assoc]
      rfl
    · intro a ha
      exact hmono a (List.mem_append.mpr (Or.inl ha))
    · intro kv hkv a hamem
      rcases List.mem_cons.mp hkv with heq | hkv2
      · subst heq
        apply hmono a
        show a ∈ t.columns ++ (kv.2.map (fun kv => kv.1)).filter
          (fun c => ¬ t.columns.contains c)
        rw [List.mem_append]
        by_cases hat : a ∈ t.columns
        · exact Or.inl hat
        · exact Or.inr (List.mem_filter.mpr ⟨hamem, by simpa using hat⟩)
      · exact hmem kv hkv2 a hamem

theorem getitem_of_insert_rows (t : Table) (items : List (String × Entry))
    (hrows : t.rows = items.map (fun kv => (kv.1, insertRow kv.1 kv.2)))
    (hnd : (items.map (fun kv => kv.1)).Nodup)
    {k : String} {e : Entry} (hmem : (k, e) ∈ items)
    (hek : (e.map (fun kv => kv.1)).Nodup)
    (hef : "_filename" ∉ e.map (fun kv => kv.1))
    (hcols : ∀ a, a ∈ e.map (fun kv => kv.1) → a ∈ t.columns) :
    ∃ ent, DatasetWrapper.__getitem__ t k = .ok ent ∧
      ∀ a v, (a, v) ∈ e → Stable v → Entry.lookupVal ent a = some v := by
  have hndrows : (t.rows.map (fun r => r.1)).Nodup := by
    rw [hrows, List.map_map]
    exact hnd
  have hrowmem : (k, insertRow k e) ∈ t.rows := by
    rw [hrows]
    exact List.mem_map.mpr ⟨(k, e), hmem, rfl⟩
  have hfind : Table.findRow t k = some (insertRow k e) := by
    unfold Table.findRow
    rw [find_of_mem_nodup t.rows hndrows hrowmem]
    rfl
  refine ⟨t.rowEntry (insertRow k e), by
    unfold DatasetWrapper.__getitem__
    rw [hfind], ?_⟩
  intro a v hav hst
  have hamem : a ∈ e.map (fun kv => kv.1) := List.mem_map.mpr ⟨(a, v), hav, rfl⟩
  have hane : a ≠ "_filename" := fun h => hef (h ▸ hamem)
  rw [lookupVal_rowEntry, if_pos (List.mem_filter.mpr
    ⟨hcols a hamem, by simpa using hane⟩)]
  unfold insertRow
  rw [if_neg (by simpa using hane), if_pos (by simpa using hamem)]
  unfold writtenCell
  rw [lookupVal_of_mem_nodup hek hav]
  show some (readCell (DatasetWrapper._serialize v)) = some v
  rw [hst]

/-- C3: export/import round trip, amended.  Re-importing an exported
collection into an empty dataset reproduces the key set in order and, for
each key, every original attribute reads back equal whenever its value's
store round trip is the identity (`Stable`, which holds for all structured
values but not for strings that re-parse as JSON); the jsonl path
additionally writes the key column itself as an attribute of every entry
(value: the key string), so the full read is NOT equal to the original
collection — see the counterexample. -/
theorem C3_export_import_roundtrip :
    ∀ (fc : String) (c : Collection),
      fc ≠ "_filename" →
      (c.map (fun kv => kv.1)).Nodup →
      (∀ kv ∈ c, RecordOK fc kv.2) →
      (∀ kv ∈ c, Stable (Val.str kv.1)) →
      (∀ kv ∈ c, ∀ av ∈ kv.2, Stable av.2) →
      (∃ t, DatasetWrapper._import_jsonl emptyTable
          (MetadataCollection._export_jsonl c fc) fc = .ok t ∧
        DatasetWrapper.keys t = c.map (fun kv => kv.1) ∧
        ∀ kv ∈ c, ∃ ent, DatasetWrapper.__getitem__ t kv.1 = .ok ent ∧
          (∀ av ∈ kv.2, Entry.lookupVal ent av.1 = some av.2) ∧
          Entry.lookupVal ent fc = some (Val.str kv.1)) ∧
      (∃ t, DatasetWrapper._import_json emptyTable
          (MetadataCollection._export_json c) = .ok t ∧
        DatasetWrapper.keys t = c.map (fun kv => kv.1) ∧
        ∀ kv ∈ c, ∃ ent, DatasetWrapper.__getitem__ t kv.1 = .ok ent ∧
          (∀ av ∈ kv.2, Entry.lookupVal ent av.1 = some av.2)) := by
  intro fc c hfcf hcnd hrec hstk hstv
  constructor
  · -- jsonl
    have hmapkeys : ((c.map (fun kv => (kv.1, (fc, Val.str kv.1) :: kv.2))).map
        (fun kv => kv.1)) = c.map (fun kv => kv.1) := by
      rw [List.map_map]
      rfl
    have hEntryOK : ∀ kv ∈ c.map (fun kv => (kv.1, (fc, Val.str kv.1) :: kv.2)),
        EntryOK kv.2 := by
      intro kv hkv
      obtain ⟨kv0, hkv0, rfl⟩ := List.mem_map.mp hkv
      obtain ⟨⟨hne0, hnd0, hnf0⟩, hfc0⟩ := hrec kv0 hkv0
      refine ⟨by simp, ?_, ?_⟩
      · simp only [List.map_cons, List.nodup_cons]
        exact ⟨hfc0, hnd0⟩
      · simp only [List.map_cons, List.mem_cons]
        rintro (h | h)
        · exact hfcf h.symm
        · exact hnf0 h
    obtain ⟨t, hfold, hrows, hmono, hmemcols⟩ :=
      setitem_fold (c.map (fun kv => (kv.1, (fc, Val.str kv.1) :: kv.2)))
        emptyTable hEntryOK (hmapkeys ▸ hcnd) (fun kv _ => rfl)
    refine ⟨t, ?_, ?_, ?_⟩
    · rw [import_jsonl_as_fold fc c emptyTable hrec]
      exact hfold
    · show t.rows.map (fun r => r.1) = _
      rw [hrows]
      simp [List.map_map, emptyTable]
    · intro kv hkv
      have hkv' : (kv.1, (fc, Val.str kv.1) :: kv.2) ∈
          c.map (fun kv => (kv.1, (fc, Val.str kv.1) :: kv.2)) :=
        List.mem_map.mpr ⟨kv, hkv, rfl⟩
      obtain ⟨⟨hne0, hnd0, hnf0⟩, hfc0⟩ := hrec kv hkv
      obtain ⟨ent, hget, hvals⟩ := getitem_of_insert_rows t
        (c.map (fun kv => (kv.1, (fc, Val.str kv.1) :: kv.2)))
        (by rw [hrows]; rfl) (hmapkeys ▸ hcnd) hkv'
        (by
          simp only [List.map_cons, List.nodup_cons]
          exact ⟨hfc0, hnd0⟩)
        (by
          simp only [List.map_cons, List.mem_cons]
          rintro (h | h)
          · exact hfcf h.symm
          · exact hnf0 h)
        (fun a ha => hmemcols _ hkv' a ha)
      refine ⟨ent, hget, ?_, ?_⟩
      · intro av hav
        exact hvals av.1 av.2 (List.mem_cons_of_mem _ hav) (hstv kv hkv av hav)
      · exact hvals fc (Val.str kv.1) (List.mem_cons_self _ _) (hstk kv hkv)
  · -- single-document json
    have hEntryOK : ∀ kv ∈ c, EntryOK kv.2 := fun kv hkv => (hrec kv hkv).1
    obtain ⟨t, hfold, hrows, hmono, hmemcols⟩ :=
      setitem_fold c emptyTable hEntryOK hcnd (fun kv _ => rfl)
    refine ⟨t, ?_, ?_, ?_⟩
    · rw [import_json_as_fold c emptyTable]
      exact hfold
    · show t.rows.map (fun r => r.1) = _
      rw [hrows]
      simp [List.map_map, emptyTable]
    · intro kv hkv
      obtain ⟨hne0, hnd0, hnf0⟩ := hEntryOK kv hkv
      obtain ⟨ent, hget, hvals⟩ := getitem_of_insert_rows t c
        (by rw [hrows]; rfl) hcnd hkv hnd0 hnf0
        (fun a ha => hmemcols kv hkv a ha)
      refine ⟨ent, hget, ?_⟩
      intro av hav
      exact hvals av.1 av.2 hav (hstv kv hkv av hav)

theorem C3_witness :
    (∃ t, DatasetWrapper._import_jsonl emptyTable
        (MetadataCollection._export_jsonl [("k", [("a", Val.int 1)])] "file_name")
        "file_name" = .ok t ∧
      DatasetWrapper.keys t =
        ([("k", [("a", Val.int 1)])] : Collection).map (fun kv => kv.1) ∧
      ∀ kv ∈ ([("k", [("a", Val.int 1)])] : Collection),
        ∃ ent, DatasetWrapper.__getitem__ t kv.1 = .ok ent ∧
          (∀ av ∈ kv.2, Entry.lookupVal ent av.1 = some av.2) ∧
          Entry.lookupVal ent "file_name" = some (Val.str kv.1)) ∧
    (∃ t, DatasetWrapper._import_json emptyTable
        (MetadataCollection._export_json [("k", [("a", Val.int 1)])]) = .ok t ∧
      DatasetWrapper.keys t =
        ([("k", [("a", Val.int 1)])] : Collection).map (fun kv => kv.1) ∧
      ∀ kv ∈ ([("k", [("a", Val.int 1)])] : Collection),
        ∃ ent, DatasetWrapper.__getitem__ t kv.1 = .ok ent ∧
          ∀ av ∈ kv.2, Entry.lookupVal ent av.1 = some av.2) :=
  C3_export_import_roundtrip "file_name" [("k", [("a", Val.int 1)])]
    (by decide) (by decide) (by decide) (by decide) (by decide)

/-- C3 counterexample to the literal claim: the jsonl import writes the
whole parsed record — key column included — through `__setitem__`, so the
re-imported dataset carries an extra `file_name` attribute on every entry
and its full read is not equal to the original collection. -/
theorem C3_counterexample :
    ∃ t, DatasetWrapper._import_jsonl emptyTable
        (MetadataCollection._export_jsonl [("k", [("a", Val.int 1)])] "file_name")
        "file_name" = .ok t ∧
      DatasetWrapper.all t ≠ [("k", [("a", Val.int 1)])] := by
  refine ⟨{ columns := ["_filename", "file_name", "a"],
            rows := [("k", insertRow "k"
              [("file_name", Val.str "k"), ("a", Val.int 1)])] }, rfl, ?_⟩
  decide
